import Mathlib

/-!
Verification of the CVMaestro markdown resume parser and formatter
(`src/cvmaestro/services/parser.py` and `src/cvmaestro/services/formatter.py`).

Text is modelled as `List Char` (one entry per Unicode code point, matching
Python's `str` indexing/length semantics for the fragments involved).  Every
definition below is a direct shallow embedding of the corresponding Python
function; spec-side (claim-side) definitions, used to compare the written
specification against the code, carry a `spec` name marker.
-/

namespace CV

/-- Character-list model of Python strings. -/
abbrev Str : Type := List Char

/-- Convert a Lean string literal into the character-list model. -/
def str (s : String) : Str := s.data

/-- Python `str.strip()` whitespace class (ASCII part). -/
def isWS (c : Char) : Bool :=
  c = ' ' || c = '\t' || c = '\n' || c = '\r' || c = '\x0b' || c = '\x0c'

/-- Drop leading whitespace, as the left half of Python `strip()`. -/
def trimL : Str → Str
  | [] => []
  | c :: r => if isWS c then trimL r else c :: r

/-- Drop trailing whitespace, as the right half of Python `strip()`. -/
def trimR : Str → Str
  | [] => []
  | c :: r =>
    match trimR r with
    | [] => if isWS c then [] else [c]
    | d :: t => c :: d :: t

/-- Python `str.strip()`. -/
def trim (s : Str) : Str := trimR (trimL s)

/-- Python `content.split(sep)` for a single-character separator: keeps empty
chunks, and the split of the empty string is `[""]`. -/
def splitOnChar (sep : Char) : Str → List Str
  | [] => [[]]
  | c :: r =>
    if c = sep then [] :: splitOnChar sep r
    else
      match splitOnChar sep r with
      | [] => [[c]]
      | l :: ls => (c :: l) :: ls

/-- Python `content.split("\n")`. -/
def splitOnNl : Str → List Str := splitOnChar '\n'

/-- Python `sep.join(parts)`. -/
def joinSep (sep : Str) : List Str → Str
  | [] => []
  | [x] => x
  | x :: y :: ys => x ++ sep ++ joinSep sep (y :: ys)

/-- Python `"\n".join(parts)`. -/
def joinNl : List Str → Str := joinSep ['\n']

/-- Python `str.lower()` (ASCII part). -/
def low (s : Str) : Str := s.map Char.toLower

/-- Python `str.isupper()`: at least one cased character and no lowercase
cased character (cased = alphabetic in the ASCII fragment modelled here). -/
def pyIsUpper (s : Str) : Bool :=
  s.any (fun c => c.isAlpha) && s.all (fun c => !c.isAlpha || c.isUpper)

/-- Python `str.title()` (ASCII part): a cased character after an uncased one
is uppercased, a cased character after a cased one is lowercased. -/
def pyTitleGo : Bool → Str → Str
  | _, [] => []
  | prev, c :: r =>
    (if c.isAlpha then (if prev then c.toLower else c.toUpper) else c)
      :: pyTitleGo c.isAlpha r

/-- Python `str.title()`. -/
def pyTitle (s : Str) : Str := pyTitleGo false s

/-- Whether the last character is `c` (Python `str.endswith` for one char). -/
def lastIs (s : Str) (c : Char) : Bool :=
  match s.getLast? with
  | some d => d = c
  | none => false

/-- First-match association lookup (Python `dict` access on a literal dict). -/
def lookupKV : List (Str × Str) → Str → Option Str
  | [], _ => none
  | (k, v) :: r, key => if k = key then some v else lookupKV r key

/-! ### Parser: `ResumeParser` (`parser.py`) -/

/-- One alternative inside a section regex group: `lit w` is a literal word,
`lit2 w1 w2` is `w1\s+w2`, and `litS w` is `w` with a greedy optional `s`
(the `s?` suffix used by `certifications?`, `awards?`, …). -/
inductive Alt where
  | lit (w : Str)
  | lit2 (w1 w2 : Str)
  | litS (w : Str)

/-- Length of the maximal leading whitespace run (`\s*`). -/
def wsCount : Str → Nat
  | [] => 0
  | c :: r => if isWS c then wsCount r + 1 else 0

/-- Length of the maximal leading `#` run (`#+`). -/
def hashCount : Str → Nat
  | [] => 0
  | c :: r => if c = '#' then hashCount r + 1 else 0

/-- Match one alternative against the start of `rest`, case-insensitively,
returning the length of the matched text.  `re.IGNORECASE` is modelled by
comparing against the lowercased text. -/
def altMatch : Alt → Str → Option Nat
  | .lit w, rest => if w.isPrefixOf (low rest) then some w.length else none
  | .lit2 w1 w2, rest =>
    if w1.isPrefixOf (low rest) then
      let r1 := rest.drop w1.length
      let k := wsCount r1
      if 0 < k && w2.isPrefixOf (low (r1.drop k)) then
        some (w1.length + k + w2.length)
      else none
    else none
  | .litS w, rest =>
    if (w ++ ['s']).isPrefixOf (low rest) then some (w.length + 1)
    else if w.isPrefixOf (low rest) then some w.length
    else none

/-- First alternative of a group that matches (regex alternation order). -/
def altsMatch : List Alt → Str → Option Nat
  | [], _ => none
  | a :: as, rest =>
    match altMatch a rest with
    | some n => some n
    | none => altsMatch as rest

/-- The eleven specific `SECTION_PATTERNS` groups, in source order. -/
def SECTION_ALTS : List (List Alt) :=
  [ [.lit (str "summary"), .lit (str "profile"), .lit (str "objective")],
    [.lit (str "experience"), .lit2 (str "work") (str "experience"),
     .lit (str "employment")],
    [.lit (str "education"), .lit2 (str "academic") (str "background")],
    [.lit (str "skills"), .lit2 (str "technical") (str "skills"),
     .lit2 (str "core") (str "competencies")],
    [.lit (str "projects"), .lit2 (str "notable") (str "projects")],
    [.litS (str "certification"), .litS (str "license")],
    [.litS (str "award"), .litS (str "achievement"), .litS (str "honor")],
    [.lit (str "contact"), .lit2 (str "contact") (str "information")],
    [.litS (str "language")],
    [.litS (str "publication")],
    [.litS (str "reference")] ]

/-- First specific pattern that matches (patterns are tried top-to-bottom). -/
def findSpecific : List (List Alt) → Str → Option Nat
  | [], _ => none
  | g :: gs, rest =>
    match altsMatch g rest with
    | some n => some n
    | none => findSpecific gs rest

/-- The normalization table of `_normalize_section_name`. -/
def MAPPINGS : List (Str × Str) :=
  [ (str "summary", str "summary"),
    (str "profile", str "summary"),
    (str "objective", str "summary"),
    (str "professional summary", str "summary"),
    (str "experience", str "experience"),
    (str "work experience", str "experience"),
    (str "employment", str "experience"),
    (str "professional experience", str "experience"),
    (str "education", str "education"),
    (str "academic background", str "education"),
    (str "skills", str "skills"),
    (str "technical skills", str "skills"),
    (str "core competencies", str "skills"),
    (str "projects", str "projects"),
    (str "notable projects", str "projects"),
    (str "certifications", str "certifications"),
    (str "certification", str "certifications"),
    (str "licenses", str "certifications"),
    (str "license", str "certifications"),
    (str "awards", str "awards"),
    (str "award", str "awards"),
    (str "achievements", str "awards"),
    (str "achievement", str "awards"),
    (str "honors", str "awards"),
    (str "honor", str "awards"),
    (str "contact", str "contact"),
    (str "contact information", str "contact"),
    (str "languages", str "languages"),
    (str "language", str "languages"),
    (str "publications", str "publications"),
    (str "publication", str "publications"),
    (str "references", str "references"),
    (str "reference", str "references") ]

/-- `_normalize_section_name`: lowercase, strip, then map through the table
(unmapped names pass through). -/
def normalizeSectionName (name : Str) : Str :=
  let m := trim (low name)
  (lookupKV MAPPINGS m).getD m

/-- Text following the maximal `#+` and `\s*` runs of a stripped line. -/
def restAfterHashes (s : Str) : Str :=
  (s.drop (hashCount s)).drop (wsCount (s.drop (hashCount s)))

/-- Body of `_extract_section_name` on the already-stripped line: try the
specific patterns followed by the catch-all `^#+\s*(.+)`.  With regex
backtracking, only the maximal `#+` and `\s*` runs can precede a specific
synonym (synonyms start with letters); the catch-all captures the remaining
text, falling back on a single trailing `#` (shorter `#+` run) for a
stripped line made of two or more `#` and nothing else. -/
def extractFromTrimmed (s : Str) : Option Str :=
  if hashCount s = 0 then none
  else
    match findSpecific SECTION_ALTS (restAfterHashes s) with
    | some n => some (normalizeSectionName (trim ((restAfterHashes s).take n)))
    | none =>
      if (restAfterHashes s).isEmpty then
        if 2 ≤ hashCount s then some (normalizeSectionName ['#']) else none
      else some (normalizeSectionName (trim (restAfterHashes s)))

/-- `_extract_section_name`. -/
def extractSectionName (line : Str) : Option Str :=
  extractFromTrimmed (trim line)

/-- Insert-or-overwrite for the section dictionary: Python dict assignment
keeps the original insertion position on overwrite. -/
def updateKV : List (Str × Str) → Str → Str → List (Str × Str)
  | [], k, v => [(k, v)]
  | (k', v') :: r, k, v =>
    if k' = k then (k, v) :: r else (k', v') :: updateKV r k v

/-- Parser loop state of `_parse_markdown_content`: committed sections,
current section name, current content buffer, and the header-found flag. -/
structure PState where
  sections : List (Str × Str)
  cur : Option Str
  buf : List Str
  hf : Bool
deriving Repr, DecidableEq

/-- Commit the open section if its name is set and its buffer is non-empty
(the `if current_section and current_content` guard). -/
def commitP (st : PState) : List (Str × Str) :=
  match st.cur with
  | some c => if st.buf.isEmpty then st.sections
              else updateKV st.sections c (trim (joinNl st.buf))
  | none => st.sections

/-- One iteration of the `for line in lines` loop. -/
def stepP (st : PState) (line : Str) : PState :=
  match extractSectionName line with
  | some name => ⟨commitP st, some name, [], true⟩
  | none =>
    if st.hf then ⟨st.sections, st.cur, st.buf ++ [line], st.hf⟩
    else
      match st.cur with
      | none => ⟨st.sections, some (str "header"), [line], false⟩
      | some _ => ⟨st.sections, st.cur, st.buf ++ [line], st.hf⟩

/-- Final commit plus the empty-section post-filter. -/
def finishP (st : PState) : List (Str × Str) :=
  (commitP st).filter (fun kv => !(trim kv.2).isEmpty)

/-- `_parse_markdown_content`. -/
def parseMarkdownContent (content : Str) : List (Str × Str) :=
  finishP ((splitOnNl content).foldl stepP ⟨[], none, [], false⟩)

/-- Failure modes of `parse_markdown_file`: `FileNotFoundError` and
`ValueError` (unreadable or empty file). -/
inductive FileError where
  | notFound
  | malformed
deriving Repr, DecidableEq

/-- `parse_markdown_file` over an abstract file system: `none` means the path
does not exist, `some none` an existing file whose bytes cannot be decoded as
text, `some (some c)` a file decoding to content `c`. -/
def parseMarkdownFile (file : Option (Option Str)) :
    Except FileError (List (Str × Str)) :=
  match file with
  | none => .error .notFound
  | some none => .error .malformed
  | some (some content) =>
    if (trim content).isEmpty then .error .malformed
    else .ok (parseMarkdownContent content)

/-! ### Formatter: `MarkdownFormatter` (`formatter.py`) -/

/-- `DEFAULT_SECTION_ORDER`. -/
def DEFAULT_SECTION_ORDER : List Str :=
  [ str "header", str "contact", str "summary", str "experience",
    str "education", str "skills", str "projects", str "certifications",
    str "awards", str "languages", str "publications", str "references" ]

/-- Second loop of `_get_section_order`: append each remaining key unless it
is already in the accumulated order. -/
def addRemaining : List Str → List Str → List Str
  | acc, [] => acc
  | acc, k :: r =>
    if acc.contains k then addRemaining acc r
    else addRemaining (acc ++ [k]) r

/-- `_get_section_order`. -/
def getSectionOrder (m : List (Str × Str)) : List Str :=
  let ks := m.map Prod.fst
  let ordered := DEFAULT_SECTION_ORDER.filter (fun s => ks.contains s)
  addRemaining ordered ks

/-- `_format_header_section`: first non-blank line of the stripped body as a
level-1 heading, else `# Resume`. -/
def formatHeaderSection (content : Str) : Str :=
  match (splitOnNl (trim content)).find? (fun l => !(trim l).isEmpty) with
  | some l => str "# " ++ trim l
  | none => str "# Resume"

/-- `_format_contact_section`. -/
def formatContactSection (content : Str) : Str :=
  let cleaned := trim content
  if cleaned.isEmpty then [] else str "## Contact\n\n" ++ cleaned

/-- `_format_summary_section`. -/
def formatSummarySection (content : Str) : Str :=
  let cleaned := trim content
  if cleaned.isEmpty then [] else str "## Professional Summary\n\n" ++ cleaned

/-- Python `line.startswith(("-", "*", "#", "**"))`. -/
def startsBullet (t : Str) : Bool :=
  (str "-").isPrefixOf t || (str "*").isPrefixOf t ||
  (str "#").isPrefixOf t || (str "**").isPrefixOf t

/-- Per-line body of the `_format_experience_section` loop: strip the line,
keep blanks, and bullet a stripped line unless it starts like a bullet or
header, ends with `:`, or is fully upper-case. -/
def expLine (l : Str) : Str :=
  let t := trim l
  if t.isEmpty then []
  else if !startsBullet t && !lastIs t ':' then
    if !t.isEmpty && !pyIsUpper t then str "- " ++ t else t
  else t

/-- `_format_experience_section`. -/
def formatExperienceSection (content : Str) : Str :=
  let cleaned := trim content
  if cleaned.isEmpty then []
  else str "## Experience\n\n" ++ joinNl ((splitOnNl cleaned).map expLine)

/-- Greedy skill packing loop of `_format_skills_section`: flush the current
line when the tracked length plus the next skill's length exceeds 60 and the
line is non-empty; the tracked length grows by `len(skill) + 3` on append and
resets to `len(skill)` after a flush. -/
def packLoop : List Str → List (List Str) → List Str → Nat → List (List Str)
  | [], acc, cur, _ => if cur.isEmpty then acc else acc ++ [cur]
  | s :: rest, acc, cur, len =>
    if 60 < len + s.length && !cur.isEmpty then
      packLoop rest (acc ++ [cur]) [s] s.length
    else
      packLoop rest acc (cur ++ [s]) (len + s.length + 3)

/-- Comma-split skills, stripped, with empties removed. -/
def splitSkills (cleaned : Str) : List Str :=
  ((splitOnChar ',' cleaned).map trim).filter (fun s => !s.isEmpty)

/-- Render one packed line as `- skill • skill • …`. -/
def renderSkillLine (l : List Str) : Str := str "- " ++ joinSep (str " • ") l

/-- `_format_skills_section`. -/
def formatSkillsSection (content : Str) : Str :=
  let cleaned := trim content
  if cleaned.isEmpty then []
  else if cleaned.contains ',' && !cleaned.contains '\n' then
    str "## Skills\n\n" ++
      joinNl ((packLoop (splitSkills cleaned) [] [] 0).map renderSkillLine)
  else str "## Skills\n\n" ++ cleaned

/-- `_format_generic_section`: `## <Title Case, underscores to spaces>` over
the stripped body. -/
def formatGenericSection (name content : Str) : Str :=
  let cleaned := trim content
  if cleaned.isEmpty then []
  else
    str "## " ++ pyTitle (name.map (fun c => if c = '_' then ' ' else c)) ++
      str "\n\n" ++ cleaned

/-- `_format_section`: empty-body guard, then dispatch on the section name. -/
def formatSection (name content template : Str) : Str :=
  if (trim content).isEmpty then []
  else if name = str "header" then formatHeaderSection content
  else if name = str "contact" then formatContactSection content
  else if name = str "summary" then formatSummarySection content
  else if name = str "experience" then formatExperienceSection content
  else if name = str "skills" then formatSkillsSection content
  else formatGenericSection name content

/-- `format_resume`: placeholder for an empty map, otherwise the non-empty
section blocks joined by a blank line in `_get_section_order` order. -/
def formatResume (m : List (Str × Str)) (template : Str) : Str :=
  if m.isEmpty then str "# Resume\n\n*No content available*"
  else
    joinSep (str "\n\n")
      ((getSectionOrder m).filterMap (fun k =>
        match lookupKV m k with
        | some c =>
          let f := formatSection k c template
          if f.isEmpty then none else some f
        | none => none))

/-! ### Spec-side definitions

These follow the wording of the specification (the claims under check), to be
compared with the code-side definitions above. -/

/-- Spec-side skills packing, following the claim's words: the running
character count of a line is the sum of its skill lengths plus 3 per
separator, and a new line starts whenever appending the next skill (joined by
the three-character separator) would push that count past 60. -/
def specPackLoop : List Str → List (List Str) → List Str → Nat → List (List Str)
  | [], acc, cur, _ => if cur.isEmpty then acc else acc ++ [cur]
  | s :: rest, acc, cur, len =>
    if cur.isEmpty then specPackLoop rest acc [s] s.length
    else if 60 < len + 3 + s.length then
      specPackLoop rest (acc ++ [cur]) [s] s.length
    else specPackLoop rest acc (cur ++ [s]) (len + 3 + s.length)

/-- Spec-side experience line rule, following the claim's words: `- ` is
prefixed to every non-blank line that does not already start with `-`, `*`,
`#`, or `**`, does not end with `:`, and is not fully upper-case; other lines
pass through as written. -/
def specExpLine (l : Str) : Str :=
  if (trim l).isEmpty then l
  else if !startsBullet l && !lastIs l ':' && !pyIsUpper l then str "- " ++ l
  else l

/-- Amended skills accounting: the same greedy packing with the tracked
length derived from the line contents — on the first output line the tracker
charges length + 3 for every appended skill, on later lines the first skill
of the line is charged without the separator cost. -/
def amendCount (isFirst : Bool) (cur : List Str) : Nat :=
  (cur.map List.length).sum + 3 * (if isFirst then cur.length else cur.length - 1)

/-- Amended skills packing loop: flush when the derived running count plus
the next skill's bare length exceeds 60 and the line is non-empty. -/
def amendPackLoop : List Str → List (List Str) → List Str → Bool → List (List Str)
  | [], acc, cur, _ => if cur.isEmpty then acc else acc ++ [cur]
  | s :: rest, acc, cur, isFirst =>
    if 60 < amendCount isFirst cur + s.length && !cur.isEmpty then
      amendPackLoop rest (acc ++ [cur]) [s] false
    else amendPackLoop rest acc (cur ++ [s]) isFirst

/-- Amended experience line rule: each line is first stripped; whitespace-only
lines become empty, stripped lines that start like a bullet or header, end
with `:`, or are fully upper-case pass through stripped, and every other
line is prefixed with `- ` after stripping. -/
def amendExpLine (l : Str) : Str :=
  let t := trim l
  if t.isEmpty then []
  else if startsBullet t || lastIs t ':' || pyIsUpper t then t
  else str "- " ++ t

/-- Skill triple whose lengths (61, 28, 30) separate the claim's separator
accounting from the code's tracked counter. -/
def skA : Str := str "aaaaaaaaaaaaaaaaaaaaaaaaaaaaaaaaaaaaaaaaaaaaaaaaaaaaaaaaaaaaa"

/-- Second skill of the separating triple (28 characters). -/
def skB : Str := str "bbbbbbbbbbbbbbbbbbbbbbbbbbbb"

/-- Third skill of the separating triple (30 characters). -/
def skC : Str := str "cccccccccccccccccccccccccccccc"

/-- Skills body built from the separating triple. -/
def c2body : Str := skA ++ str ", " ++ skB ++ str ", " ++ skC

/-- Heading line emitted by `_format_section` for a non-`header` section. -/
def headingOf (k : Str) : Str :=
  if k = str "contact" then str "## Contact"
  else if k = str "summary" then str "## Professional Summary"
  else if k = str "experience" then str "## Experience"
  else if k = str "skills" then str "## Skills"
  else str "## " ++ pyTitle (k.map (fun c => if c = '_' then ' ' else c))

/-- Body emitted by `_format_section` below the heading for a non-`header`
section with non-blank content. -/
def sectionBody (k v : Str) : Str :=
  if k = str "experience" then joinNl ((splitOnNl (trim v)).map expLine)
  else if k = str "skills" then
    (if (trim v).contains ',' && !(trim v).contains '\n' then
       joinNl ((packLoop (splitSkills (trim v)) [] [] 0).map renderSkillLine)
     else trim v)
  else trim v

/-- One rendered section block. -/
def blockOf (kv : Str × Str) : Str := headingOf kv.1 ++ str "\n\n" ++ kv.2

/-- Rendered blocks joined by a blank line. -/
def blocksOf (ps : List (Str × Str)) : Str :=
  joinSep (str "\n\n") (ps.map blockOf)

/-- Line stream that follows the currently-open section while parsing a
rendered document: blank separator, heading, blank, body lines, and so on. -/
def restLines : List (Str × Str) → List Str
  | [] => []
  | (k, w) :: ps => [] :: headingOf k :: [] :: (splitOnNl w ++ restLines ps)

/-- A rendered pair that the parser maps back to itself: its heading line
extracts to its key, the heading has no newline, and its body is a stripped
non-empty text none of whose lines is recognized as a header. -/
def GoodPair (p : Str × Str) : Prop :=
  extractSectionName (headingOf p.1) = some p.1 ∧
  (headingOf p.1).contains '\n' = false ∧
  trim p.2 = p.2 ∧ p.2 ≠ [] ∧
  ∀ l ∈ splitOnNl p.2, extractSectionName l = none

/-- Round-trip stability conditions for one parsed section. -/
def stablePair (k v : Str) : Bool :=
  decide (k ≠ str "header") &&
  !(trim v).isEmpty &&
  decide (extractSectionName (headingOf k) = some k) &&
  !(headingOf k).contains '\n' &&
  !(sectionBody k v).isEmpty &&
  decide (trim (sectionBody k v) = sectionBody k v) &&
  (splitOnNl (sectionBody k v)).all (fun l => (extractSectionName l).isNone) &&
  decide (sectionBody k (sectionBody k v) = sectionBody k v)

/-- Round-trip stability conditions for a whole section map. -/
def stableMap (m : List (Str × Str)) : Bool :=
  !m.isEmpty && decide ((m.map Prod.fst).Nodup) &&
  m.all (fun kv => stablePair kv.1 kv.2)

/-- The section map recovered by re-parsing a rendered stable map: the same
keys in `_get_section_order` order, each with its rendered body. -/
def stableParsePairs (m : List (Str × Str)) : List (Str × Str) :=
  (getSectionOrder m).map (fun k => (k, sectionBody k ((lookupKV m k).getD [])))

/-- C4 witness map: recognized keys out of priority order plus an
unrecognized key. -/
def c4m : List (Str × Str) :=
  [(str "skills", str "x"), (str "zeta", str "y"), (str "contact", str "z")]

/-- The canonical section names produced by the specific recognized
synonyms. -/
def CANONICAL_NAMES : List Str :=
  [ str "summary", str "experience", str "education", str "skills",
    str "projects", str "certifications", str "awards", str "contact",
    str "languages", str "publications", str "references" ]

/-- Position-wise disagreement of two words within their common length:
a sufficient, decidable certificate that one word can never be a prefix of
any extension of the other. -/
def mismatchWithin (w s : Str) : Bool :=
  (List.zip w s).any (fun q => !(q.1 == q.2))

/-- Decidable certificate that a pattern alternative fails on every text
whose lowercase form extends `syn`. -/
def altFailsOn (a : Alt) (syn : Str) : Bool :=
  match a with
  | .lit w => mismatchWithin w syn
  | .lit2 w1 _ => mismatchWithin w1 syn
  | .litS w => mismatchWithin (w ++ ['s']) syn && mismatchWithin w syn

/-- The recognized synonyms (as matched by the specific patterns, lowercase)
with their canonical section names. -/
def SYNONYM_TABLE : List (Str × Str) :=
  [ (str "summary", str "summary"),
    (str "profile", str "summary"),
    (str "objective", str "summary"),
    (str "experience", str "experience"),
    (str "work experience", str "experience"),
    (str "employment", str "experience"),
    (str "education", str "education"),
    (str "academic background", str "education"),
    (str "skills", str "skills"),
    (str "technical skills", str "skills"),
    (str "core competencies", str "skills"),
    (str "projects", str "projects"),
    (str "notable projects", str "projects"),
    (str "certification", str "certifications"),
    (str "certifications", str "certifications"),
    (str "license", str "certifications"),
    (str "licenses", str "certifications"),
    (str "award", str "awards"),
    (str "awards", str "awards"),
    (str "achievement", str "awards"),
    (str "achievements", str "awards"),
    (str "honor", str "awards"),
    (str "honors", str "awards"),
    (str "contact", str "contact"),
    (str "contact information", str "contact"),
    (str "language", str "languages"),
    (str "languages", str "languages"),
    (str "publication", str "publications"),
    (str "publications", str "publications"),
    (str "reference", str "references"),
    (str "references", str "references") ]

/-! ### Helper lemmas -/

/-- The code's tracked skill-line counter equals the derived amended count. -/
lemma pack_eq_amend : ∀ (l : List Str) (acc : List (List Str)) (cur : List Str)
    (len : Nat) (isFirst : Bool), len = amendCount isFirst cur →
    (isFirst = false → cur ≠ []) →
    packLoop l acc cur len = amendPackLoop l acc cur isFirst := by
  intro l
  induction l with
  | nil => intro acc cur len isFirst _ _; rfl
  | cons s rest ih =>
    intro acc cur len isFirst hlen hne
    subst hlen
    show packLoop (s :: rest) acc cur (amendCount isFirst cur)
        = amendPackLoop (s :: rest) acc cur isFirst
    rw [packLoop, amendPackLoop]
    by_cases hflush : 60 < amendCount isFirst cur + s.length ∧ cur ≠ []
    · have hb : (60 < amendCount isFirst cur + s.length && !cur.isEmpty) = true := by
        simp [hflush.1, List.isEmpty_iff, hflush.2]
      rw [hb]
      simp only [if_true]
      exact ih (acc ++ [cur]) [s] s.length false (by simp [amendCount]) (by simp)
    · have hb : (60 < amendCount isFirst cur + s.length && !cur.isEmpty) = false := by
        rcases not_and_or.mp hflush with h | h
        · simp [h]
        · have : cur = [] := by simpa using h
          simp [this]
      rw [hb]
      simp only [if_false, Bool.false_eq_true]
      have hcount : amendCount isFirst cur + s.length + 3
          = amendCount isFirst (cur ++ [s]) := by
        rcases isFirst with _ | _
        · have hcur : cur ≠ [] := hne rfl
          have hlen1 : 1 ≤ cur.length := List.length_pos.mpr hcur
          simp only [amendCount, List.map_append, List.sum_append, List.length_append,
            if_false, Bool.false_eq_true]
          simp
          omega
        · simp only [amendCount, List.map_append, List.sum_append, List.length_append,
            if_true]
          simp
          omega
      rw [hcount]
      exact ih acc (cur ++ [s]) _ isFirst rfl (fun h => by simp)

/-- The code's experience line rule equals the amended spec-side rule. -/
lemma expLine_eq_amend (l : Str) : expLine l = amendExpLine l := by
  unfold expLine amendExpLine
  by_cases h1 : (trim l).isEmpty
  · simp [h1]
  · by_cases h2 : startsBullet (trim l) <;>
      by_cases h3 : lastIs (trim l) ':' <;>
      by_cases h4 : pyIsUpper (trim l) <;>
      simp [h1, h2, h3, h4]

/-- A block headed by a literal `## …` string is never empty. -/
lemma str_append_ne_nil {s : String} {x : Str} (h : s.data ≠ []) :
    (str s ++ x).isEmpty = false := by
  rcases hd : s.data with _ | ⟨c, r⟩
  · exact absurd hd h
  · simp [str, hd]

/-! ### Claim C7: the formatter never fails and maps the empty map to the
fixed placeholder document -/

/-- C7.  For every template string, `format_resume` applied to the empty
section map returns exactly the placeholder document
`"# Resume\n\n*No content available*"`; the formatter is a total function of
its inputs in this embedding, so it returns a document without error for
every section map and template. -/
theorem c7_empty_format (template : Str) :
    formatResume [] template = str "# Resume\n\n*No content available*" := rfl

/-! ### Claim C6: parser error handling -/

/-- C6.  Parsing from a file path fails with `FileNotFoundError` exactly when
the path does not exist, fails with `ValueError` exactly when the existing
file cannot be decoded or its decoded content is empty or whitespace-only,
and succeeds (never raises) on every readable file with non-whitespace
content, however odd the markdown. -/
theorem c6_file_errors :
    (∀ f, parseMarkdownFile f = .error .notFound ↔ f = none) ∧
    (∀ f, parseMarkdownFile f = .error .malformed ↔
      (f = some none ∨ ∃ c, f = some (some c) ∧ (trim c).isEmpty = true)) ∧
    (∀ c, (trim c).isEmpty = false →
      parseMarkdownFile (some (some c)) = .ok (parseMarkdownContent c)) := by
  refine ⟨?_, ?_, ?_⟩
  · intro f
    rcases f with _ | ⟨_ | c⟩
    · simp [parseMarkdownFile]
    · simp [parseMarkdownFile]
    · by_cases h : (trim c).isEmpty <;> simp [parseMarkdownFile, h]
  · intro f
    rcases f with _ | ⟨_ | c⟩
    · simp [parseMarkdownFile]
    · simp [parseMarkdownFile]
    · by_cases h : (trim c).isEmpty
      · have h' : trim c = [] := List.isEmpty_iff.mp h
        simp [parseMarkdownFile, h, h']
      · have h' : ¬ trim c = [] := fun hh => h (List.isEmpty_iff.mpr hh)
        simp [parseMarkdownFile, h, h']
  · intro c h
    simp [parseMarkdownFile, h]

/-- C6 witness: concrete instances of each error mode and of success. -/
theorem c6_file_errors_witness :
    parseMarkdownFile none = .error .notFound ∧
    parseMarkdownFile (some none) = .error .malformed ∧
    parseMarkdownFile (some (some (str "   "))) = .error .malformed ∧
    parseMarkdownFile (some (some (str "Jane Doe")))
      = .ok (parseMarkdownContent (str "Jane Doe")) := by
  refine ⟨(c6_file_errors.1 none).mpr rfl, ?_, ?_, ?_⟩
  · exact (c6_file_errors.2.1 (some none)).mpr (Or.inl rfl)
  · exact (c6_file_errors.2.1 (some (some (str "   ")))).mpr
      (Or.inr ⟨str "   ", rfl, by decide⟩)
  · exact c6_file_errors.2.2 (str "Jane Doe") (by decide)

/-! ### Claim C10: lines made of `#` characters and whitespace -/

/-- C10 counterexample: the claim says a line consisting only of `#`
characters and whitespace (for example `##   `) is never recognized as a
section header and is accumulated into the current body.  In fact the
catch-all pattern backtracks one `#` on such a line with two or more `#`,
recognizing it as a header named `#`: the document `"x\n##   \ny"` parses to
two sections rather than a single accumulated `header` section. -/
theorem c10_counterexample :
    parseMarkdownContent (str "x\n##   \ny")
      = [(str "header", str "x"), (str "#", str "y")] ∧
    parseMarkdownContent (str "x\n##   \ny") ≠ [(str "header", str "x\n##   \ny")] ∧
    extractSectionName (str "##   ") = some (str "#") ∧
    extractSectionName (str "#") = none := by decide

/-- Leading-`#` count of a pure `#` run. -/
lemma hashCount_replicate (m : Nat) : hashCount (List.replicate m '#') = m := by
  induction m with
  | zero => rfl
  | succ n ih => simp [List.replicate_succ, hashCount, ih]

/-- C10 amended: a line whose stripped content is a run of `m` copies of `#`
(and nothing else) is not recognized as a header when `m ≤ 1`; with `m ≥ 2`
the regex backtracking recognizes it as a header named `#`.  Only the
unrecognized case is accumulated into the current section body. -/
theorem c10_amended (l : Str) (m : Nat) (h : trim l = List.replicate m '#') :
    extractSectionName l = if 2 ≤ m then some (str "#") else none := by
  have hrest : restAfterHashes (List.replicate m '#') = [] := by
    unfold restAfterHashes
    rw [hashCount_replicate]
    simp
  unfold extractSectionName extractFromTrimmed
  rw [h, hrest, hashCount_replicate]
  have hfs : findSpecific SECTION_ALTS [] = none := by decide
  rw [hfs]
  have hnorm : normalizeSectionName ['#'] = str "#" := by decide
  rcases m with _ | n
  · simp
  · simp [hnorm]

/-- C10 amended witness: the line `##   ` strips to a two-`#` run and is
recognized as a header named `#`. -/
theorem c10_amended_witness :
    trim (str "##   ") = List.replicate 2 '#' ∧
    extractSectionName (str "##   ") = some (str "#") := by
  refine ⟨by decide, ?_⟩
  have h := c10_amended (str "##   ") 2 (by decide)
  simpa using h

/-! ### Claim C2: skills rendering -/

/-- C2 counterexample: on the comma-separated skills of lengths 61, 28 and 30,
the claim's accounting (sum of skill lengths plus 3 per separator, wrap when
appending the next skill would pass 60) puts each skill on its own line, while
the code keeps the second and third skills together: its tracked counter does
not charge the separator for the first skill of a post-wrap line and its wrap
test ignores the separator about to be appended. -/
theorem c2_counterexample :
    formatSkillsSection c2body ≠
      str "## Skills\n\n" ++
        joinNl ((specPackLoop (splitSkills (trim c2body)) [] [] 0).map renderSkillLine) ∧
    packLoop (splitSkills (trim c2body)) [] [] 0 = [[skA], [skB, skC]] ∧
    specPackLoop (splitSkills (trim c2body)) [] [] 0 = [[skA], [skB], [skC]] := by
  refine ⟨by decide, by decide, by decide⟩

/-- C2 amended: when the stripped skills body contains a comma and no
newline, `_format_skills_section` splits on commas, strips each item, drops
empties, and greedily packs the skills under `## Skills` with the amended
accounting: the tracked line length grows by skill length + 3 for every
appended skill (including the first skill of the first line), resets to the
new skill's bare length after a wrap, and a wrap occurs when the tracked
length plus the next skill's bare length exceeds 60 on a non-empty line;
otherwise the stripped body passes through unchanged under `## Skills`.
`format` on a one-entry skills map renders exactly this section. -/
theorem c2_amended (content t : Str) :
    formatSkillsSection content =
      (if (trim content).isEmpty then []
       else if (trim content).contains ',' && !(trim content).contains '\n' then
         str "## Skills\n\n" ++
           joinNl ((amendPackLoop (splitSkills (trim content)) [] [] true).map
             renderSkillLine)
       else str "## Skills\n\n" ++ trim content) ∧
    formatResume [(str "skills", content)] t = formatSkillsSection content := by
  constructor
  · have hpack := pack_eq_amend (splitSkills (trim content)) [] [] 0 true rfl
      (fun h => absurd h (by simp))
    simp only [formatSkillsSection]
    rw [hpack]
  · by_cases h : (trim content).isEmpty
    · have h0 : formatSkillsSection content = [] := by
        unfold formatSkillsSection
        simp [h]
      rw [h0]
      have : formatSection (str "skills") content t = [] := by
        unfold formatSection
        simp [h]
      simp +decide [formatResume, getSectionOrder, addRemaining,
        DEFAULT_SECTION_ORDER, lookupKV, this, joinSep]
    · have hsec : formatSection (str "skills") content t
          = formatSkillsSection content := by
        unfold formatSection
        simp [h, str]
      have hne : (formatSkillsSection content).isEmpty = false := by
        unfold formatSkillsSection
        simp only [h, if_false, Bool.false_eq_true]
        split <;> exact str_append_ne_nil (by decide)
      have hne' : formatSkillsSection content ≠ [] := by
        intro hh
        rw [hh] at hne
        simp at hne
      simp +decide [formatResume, getSectionOrder, addRemaining,
        DEFAULT_SECTION_ORDER, lookupKV, hsec, hne', joinSep]

/-! ### Claim C5: experience rendering -/

/-- C5 counterexample: the claim applies its start/end tests to the line as
written, but the code strips each line first.  On the body
`"Led team\n # Heading\nBuilt"` the middle line starts with a space, so the
claim's rule bullets it, while the code strips it to `# Heading`, sees the
leading `#`, and leaves it unbulleted. -/
theorem c5_counterexample :
    formatExperienceSection (str "Led team\n # Heading\nBuilt") ≠
      str "## Experience\n\n" ++
        joinNl ((splitOnNl (trim (str "Led team\n # Heading\nBuilt"))).map
          specExpLine) ∧
    formatExperienceSection (str "Led team\n # Heading\nBuilt")
      = str "## Experience\n\n- Led team\n# Heading\n- Built" ∧
    joinNl ((splitOnNl (trim (str "Led team\n # Heading\nBuilt"))).map specExpLine)
      = str "- Led team\n-  # Heading\n- Built" := by
  refine ⟨by decide, by decide, by decide⟩

/-- C5 amended: `_format_experience_section` processes the trimmed body line
by line, stripping each line; whitespace-only lines become empty, and a
stripped non-blank line is prefixed with `- ` unless it already starts with
`-`, `*`, `#`, or `**`, ends with `:`, or is fully upper-case, the result
joined under `## Experience`.  `format` of a one-entry experience map renders
exactly this section, and the concrete map of the claim yields exactly
`## Experience\n\n- Led team of 5\n- Built system`. -/
theorem c5_amended (body t : Str) :
    formatExperienceSection body =
      (if (trim body).isEmpty then []
       else str "## Experience\n\n" ++
         joinNl ((splitOnNl (trim body)).map amendExpLine)) ∧
    formatResume [(str "experience", body)] t = formatExperienceSection body ∧
    formatResume [(str "experience", str "Led team of 5\nBuilt system")] t
      = str "## Experience\n\n- Led team of 5\n- Built system" := by
  refine ⟨?_, ?_, by rfl⟩
  · unfold formatExperienceSection
    by_cases h : (trim body).isEmpty
    · simp [h]
    · simp only [h, if_false, Bool.false_eq_true]
      have : (splitOnNl (trim body)).map expLine
          = (splitOnNl (trim body)).map amendExpLine :=
        List.map_congr_left (fun l _ => expLine_eq_amend l)
      rw [this]
  · by_cases h : (trim body).isEmpty
    · have h0 : formatExperienceSection body = [] := by
        unfold formatExperienceSection
        simp [h]
      rw [h0]
      have : formatSection (str "experience") body t = [] := by
        unfold formatSection
        simp [h]
      simp +decide [formatResume, getSectionOrder, addRemaining,
        DEFAULT_SECTION_ORDER, lookupKV, this, joinSep]
    · have hsec : formatSection (str "experience") body t
          = formatExperienceSection body := by
        unfold formatSection
        simp [h, str]
      have hne : (formatExperienceSection body).isEmpty = false := by
        unfold formatExperienceSection
        simp only [h, if_false, Bool.false_eq_true]
        exact str_append_ne_nil (by decide)
      have hne' : formatExperienceSection body ≠ [] := by
        intro hh
        rw [hh] at hne
        simp at hne
      simp +decide [formatResume, getSectionOrder, addRemaining,
        DEFAULT_SECTION_ORDER, lookupKV, hsec, hne', joinSep]

/-! ### Claim C4: section ordering -/

/-- On a duplicate-free key list, the second loop of `_get_section_order`
appends exactly the keys missing from the accumulated order, in key order. -/
lemma addRemaining_eq : ∀ (l acc : List Str), l.Nodup →
    addRemaining acc l = acc ++ l.filter (fun k => !acc.contains k) := by
  intro l
  induction l with
  | nil => intro acc _; simp [addRemaining]
  | cons k r ih =>
    intro acc hnd
    have hk : k ∉ r := (List.nodup_cons.mp hnd).1
    have hr : r.Nodup := (List.nodup_cons.mp hnd).2
    by_cases hc : acc.contains k
    · have hc' : k ∈ acc := by simpa using hc
      rw [addRemaining, if_pos hc, ih acc hr]
      have : (List.filter (fun x => !acc.contains x) (k :: r))
          = List.filter (fun x => !acc.contains x) r := by
        simp [List.filter_cons, hc']
      rw [this]
    · rw [addRemaining, if_neg hc, ih (acc ++ [k]) hr]
      have hfil : List.filter (fun x => !(acc ++ [k]).contains x) r
          = List.filter (fun x => !acc.contains x) r := by
        apply List.filter_congr
        intro x hx
        have hxk : ¬ x = k := fun hh => hk (hh ▸ hx)
        simp [hxk]
      rw [hfil]
      have hc' : k ∉ acc := by simpa using hc
      have : List.filter (fun x => !acc.contains x) (k :: r)
          = k :: List.filter (fun x => !acc.contains x) r := by
        simp [List.filter_cons, hc']
      rw [this]
      simp

/-- Characterization of `_get_section_order` on duplicate-free keys: the
priority list filtered to present keys, then the remaining keys in map
order. -/
lemma gso_eq (m : List (Str × Str)) (hnd : (m.map Prod.fst).Nodup) :
    getSectionOrder m
      = DEFAULT_SECTION_ORDER.filter (fun s => decide (s ∈ m.map Prod.fst))
        ++ (m.map Prod.fst).filter (fun k => decide (k ∉ DEFAULT_SECTION_ORDER)) := by
  unfold getSectionOrder
  rw [addRemaining_eq _ _ hnd]
  have h1 : DEFAULT_SECTION_ORDER.filter (fun s => (m.map Prod.fst).contains s)
      = DEFAULT_SECTION_ORDER.filter (fun s => decide (s ∈ m.map Prod.fst)) := by
    apply List.filter_congr
    intro x _
    by_cases h : x ∈ m.map Prod.fst <;> simp [h]
  have h2 : (m.map Prod.fst).filter
        (fun k => !(DEFAULT_SECTION_ORDER.filter
          (fun s => (m.map Prod.fst).contains s)).contains k)
      = (m.map Prod.fst).filter (fun k => decide (k ∉ DEFAULT_SECTION_ORDER)) := by
    apply List.filter_congr
    intro x hx
    by_cases h : x ∈ DEFAULT_SECTION_ORDER
    · have : x ∈ DEFAULT_SECTION_ORDER.filter
          (fun s => (m.map Prod.fst).contains s) := by
        simp [List.mem_filter, h, hx]
      simp [this, h]
      exact by simpa using hx
    · have : x ∉ DEFAULT_SECTION_ORDER.filter
          (fun s => (m.map Prod.fst).contains s) := by
        intro hh
        exact h (List.mem_filter.mp hh).1
      simp [this, h]
  rw [h1] at h2 ⊢
  rw [h2]

/-- `_get_section_order` has no duplicates on duplicate-free keys. -/
lemma gso_nodup (m : List (Str × Str)) (hnd : (m.map Prod.fst).Nodup) :
    (getSectionOrder m).Nodup := by
  rw [gso_eq m hnd]
  apply List.Nodup.append
  · exact List.Nodup.filter _ (by decide)
  · exact List.Nodup.filter _ hnd
  · intro a ha hb
    have h1 : a ∈ DEFAULT_SECTION_ORDER := (List.mem_filter.mp ha).1
    have h2 := (List.mem_filter.mp hb).2
    simp at h2
    exact h2 h1

/-- C4.  For a section map with duplicate-free keys, `_get_section_order`
is the fixed priority list filtered to the present keys, followed by the
remaining present keys in their original map order; it has no duplicates;
and `format_resume` on a non-empty map emits the non-empty section blocks
joined by blank lines in exactly that order. -/
theorem c4_section_order (m : List (Str × Str)) (t : Str)
    (hnd : (m.map Prod.fst).Nodup) :
    getSectionOrder m
      = DEFAULT_SECTION_ORDER.filter (fun s => decide (s ∈ m.map Prod.fst))
        ++ (m.map Prod.fst).filter (fun k => decide (k ∉ DEFAULT_SECTION_ORDER)) ∧
    (getSectionOrder m).Nodup ∧
    (m ≠ [] → formatResume m t
      = joinSep (str "\n\n")
          ((DEFAULT_SECTION_ORDER.filter (fun s => decide (s ∈ m.map Prod.fst))
            ++ (m.map Prod.fst).filter
                (fun k => decide (k ∉ DEFAULT_SECTION_ORDER))).filterMap
            (fun k =>
              match lookupKV m k with
              | some c =>
                if (formatSection k c t).isEmpty then none
                else some (formatSection k c t)
              | none => none))) := by
  refine ⟨gso_eq m hnd, gso_nodup m hnd, ?_⟩
  intro hm
  have hne : m.isEmpty = false := by
    rcases m with _ | _
    · exact absurd rfl hm
    · rfl
  unfold formatResume
  rw [hne, gso_eq m hnd]
  simp

/-- C4 witness: on the concrete map the order places `contact` before
`skills` and appends `zeta` last. -/
theorem c4_section_order_witness :
    getSectionOrder c4m
      = DEFAULT_SECTION_ORDER.filter (fun s => decide (s ∈ c4m.map Prod.fst))
        ++ (c4m.map Prod.fst).filter
            (fun k => decide (k ∉ DEFAULT_SECTION_ORDER)) ∧
    (getSectionOrder c4m).Nodup ∧
    getSectionOrder c4m = [str "contact", str "skills", str "zeta"] ∧
    formatResume c4m (str "default")
      = joinSep (str "\n\n")
          ((DEFAULT_SECTION_ORDER.filter (fun s => decide (s ∈ c4m.map Prod.fst))
            ++ (c4m.map Prod.fst).filter
                (fun k => decide (k ∉ DEFAULT_SECTION_ORDER))).filterMap
            (fun k =>
              match lookupKV c4m k with
              | some c =>
                if (formatSection k c (str "default")).isEmpty then none
                else some (formatSection k c (str "default"))
              | none => none)) := by
  have h := c4_section_order c4m (str "default") (by decide)
  exact ⟨h.1, h.2.1, by decide, h.2.2 (by decide)⟩

/-! ### String lemmas shared by the parse/format round-trip claims -/

/-- The head of a left-trimmed string is never whitespace. -/
lemma trimL_head : ∀ (s : Str) (c : Char) (t : Str),
    trimL s = c :: t → isWS c = false := by
  intro s
  induction s with
  | nil => intro c t h; simp [trimL] at h
  | cons a r ih =>
    intro c t h
    rw [trimL] at h
    by_cases hw : isWS a
    · exact ih c t (by simpa [hw] using h)
    · rw [if_neg hw] at h
      cases h
      simpa using hw

/-- Right-trimming a cons keeps the head or empties the string. -/
lemma trimR_cons_shape (c : Char) (r : Str) :
    trimR (c :: r) = [] ∨ ∃ t, trimR (c :: r) = c :: t := by
  rw [trimR]
  rcases htr : trimR r with _ | ⟨d, u⟩
  · by_cases hw : isWS c
    · exact Or.inl (by simp [hw])
    · exact Or.inr ⟨[], by simp [hw]⟩
  · exact Or.inr ⟨d :: u, rfl⟩

/-- Right-trimming is idempotent. -/
lemma trimR_idem : ∀ (s : Str), trimR (trimR s) = trimR s := by
  intro s
  induction s with
  | nil => rfl
  | cons c r ih =>
    rw [trimR]
    rcases htr : trimR r with _ | ⟨d, u⟩
    · by_cases hw : isWS c
      · simp [hw, trimR]
      · simp [hw, trimR]
    · rw [htr] at ih
      show trimR (c :: d :: u) = c :: d :: u
      rw [trimR, ih]

/-- The head of a trimmed string is never whitespace. -/
lemma trim_head (s : Str) (c : Char) (t : Str) (h : trim s = c :: t) :
    isWS c = false := by
  unfold trim at h
  rcases htl : trimL s with _ | ⟨a, u⟩
  · rw [htl] at h; simp [trimR] at h
  · rw [htl] at h
    have ha : isWS a = false := trimL_head s a u htl
    rcases trimR_cons_shape a u with h0 | ⟨v, hv⟩
    · rw [h0] at h; cases h
    · rw [hv] at h
      cases h
      exact ha

/-- Stripping is idempotent. -/
lemma trim_idem (s : Str) : trim (trim s) = trim s := by
  show trimR (trimL (trimR (trimL s))) = trimR (trimL s)
  rcases htl : trimL s with _ | ⟨a, u⟩
  · rfl
  · have ha : isWS a = false := trimL_head s a u htl
    rcases trimR_cons_shape a u with h0 | ⟨v, hv⟩
    · rw [h0]; rfl
    · rw [hv]
      have hL : trimL (a :: v) = a :: v := by
        rw [trimL, if_neg (by simp [ha])]
      rw [hL, ← hv, trimR_idem]

/-- Splitting never produces an empty chunk list. -/
lemma splitOnChar_ne_nil (sep : Char) : ∀ (s : Str), splitOnChar sep s ≠ [] := by
  intro s
  induction s with
  | nil => simp [splitOnChar]
  | cons c r ih =>
    rw [splitOnChar]
    by_cases h : c = sep
    · simp [h]
    · rcases hs : splitOnChar sep r with _ | ⟨l, ls⟩
      · simp [h, hs]
      · simp [h, hs]

/-- Unfolding equation of `joinSep` on a two-or-more chunk list. -/
lemma joinSep_cons₂ (sep x y : Str) (ys : List Str) :
    joinSep sep (x :: y :: ys) = x ++ sep ++ joinSep sep (y :: ys) := rfl

/-- Joining the newline-split of a string restores the string. -/
lemma joinNl_splitOnNl : ∀ (s : Str), joinNl (splitOnNl s) = s := by
  intro s
  induction s with
  | nil => rfl
  | cons c r ih =>
    show joinNl (splitOnChar '\n' (c :: r)) = c :: r
    rw [splitOnChar]
    rcases hs : splitOnChar '\n' r with _ | ⟨x, xs⟩
    · exact absurd hs (splitOnChar_ne_nil '\n' r)
    · have ih' : joinNl (splitOnChar '\n' r) = r := ih
      rw [hs] at ih'
      by_cases h : c = '\n'
      · simp only [h, if_true]
        show joinNl ([] :: x :: xs) = '\n' :: r
        rw [joinNl, joinSep_cons₂]
        show ([] : Str) ++ ['\n'] ++ joinSep ['\n'] (x :: xs) = '\n' :: r
        rw [show joinSep ['\n'] (x :: xs) = r from ih']
        rfl
      · simp only [h, if_false]
        rcases xs with _ | ⟨y, ys⟩
        · show joinNl [c :: x] = c :: r
          have hx : x = r := by simpa [joinNl, joinSep] using ih'
          show c :: x = c :: r
          rw [hx]
        · show joinNl ((c :: x) :: y :: ys) = c :: r
          rw [joinNl, joinSep_cons₂]
          show (c :: x) ++ ['\n'] ++ joinSep ['\n'] (y :: ys) = c :: r
          have hrest : x ++ ['\n'] ++ joinSep ['\n'] (y :: ys) = r := by
            rw [← joinSep_cons₂]
            exact ih'
          rw [← hrest]
          simp

/-- Processing a run of non-header lines only extends the buffer, as long as
a section is already open or a header has been seen. -/
lemma foldl_nonheader : ∀ (L : List Str) (st : PState),
    (∀ l ∈ L, extractSectionName l = none) →
    (st.hf = true ∨ st.cur ≠ none) →
    L.foldl stepP st = ⟨st.sections, st.cur, st.buf ++ L, st.hf⟩ := by
  intro L
  induction L with
  | nil => intro st _ _; simp
  | cons l r ih =>
    intro st hL hst
    have hl : extractSectionName l = none := hL l (List.mem_cons_self l r)
    have hr : ∀ x ∈ r, extractSectionName x = none :=
      fun x hx => hL x (List.mem_cons_of_mem l hx)
    have hstep : stepP st l = ⟨st.sections, st.cur, st.buf ++ [l], st.hf⟩ := by
      unfold stepP
      rw [hl]
      by_cases hhf : st.hf
      · simp [hhf]
      · rcases hst with h | h
        · exact absurd h hhf
        · rcases hcur : st.cur with _ | c
          · exact absurd hcur h
          · simp [hhf, hcur]
    rw [List.foldl_cons, hstep, ih _ hr (by simpa using hst)]
    simp

/-! ### Claim C8: documents with no recognized header line -/

/-- C8.  If no line of a non-whitespace document is recognized as a section
header, parsing yields the single implicit `header` section whose body is the
whole (stripped) file, and formatting that result renders the first line of
the stripped document as a level-1 heading. -/
theorem c8_headerless (content : Str)
    (h1 : (trim content).isEmpty = false)
    (h2 : ∀ l ∈ splitOnNl content, extractSectionName l = none) :
    parseMarkdownContent content = [(str "header", trim content)] ∧
    ∀ t, formatResume (parseMarkdownContent content) t
      = str "# " ++ trim ((splitOnNl (trim content)).headD []) := by
  have hparse : parseMarkdownContent content = [(str "header", trim content)] := by
    unfold parseMarkdownContent
    rcases hs : splitOnNl content with _ | ⟨l0, rest⟩
    · exact absurd hs (splitOnChar_ne_nil '\n' content)
    · have hl0 : extractSectionName l0 = none := by
        apply h2; rw [hs]; exact List.mem_cons_self l0 rest
      have hrest : ∀ x ∈ rest, extractSectionName x = none := by
        intro x hx; apply h2; rw [hs]; exact List.mem_cons_of_mem l0 hx
      rw [List.foldl_cons]
      have hstep : stepP ⟨[], none, [], false⟩ l0
          = ⟨[], some (str "header"), [l0], false⟩ := by
        unfold stepP
        rw [hl0]
        rfl
      rw [hstep, foldl_nonheader rest _ hrest (Or.inr (by simp))]
      show finishP ⟨[], some (str "header"), l0 :: rest, false⟩ = _
      unfold finishP commitP
      have hjoin : joinNl (l0 :: rest) = content := by
        rw [← hs]; exact joinNl_splitOnNl content
      simp only [hjoin]
      have hne : (trim (trim content)).isEmpty = false := by
        rw [trim_idem]; exact h1
      simp [updateKV, hne]
  refine ⟨hparse, ?_⟩
  intro t
  rw [hparse]
  have hgso : getSectionOrder [(str "header", trim content)] = [str "header"] := rfl
  have hti : trim (trim content) = trim content := trim_idem content
  have hsec : formatSection (str "header") (trim content) t
      = formatHeaderSection (trim content) := by
    unfold formatSection
    rw [hti, h1]
    simp
  rcases hb : trim content with _ | ⟨c, b⟩
  · rw [hb] at h1; simp at h1
  · have hcws : isWS c = false := trim_head content c b hb
    have hcnl : ¬ c = '\n' := by
      intro hh
      rw [hh] at hcws
      simp [isWS] at hcws
    rcases hsp : splitOnChar '\n' b with _ | ⟨x, xs⟩
    · exact absurd hsp (splitOnChar_ne_nil '\n' b)
    · have hsplit : splitOnNl (c :: b) = (c :: x) :: xs := by
        show splitOnChar '\n' (c :: b) = (c :: x) :: xs
        rw [splitOnChar, if_neg hcnl, hsp]
      have htx : trim (c :: x) ≠ [] := by
        intro hh
        unfold trim at hh
        rw [show trimL (c :: x) = c :: x by simp [trimL, hcws]] at hh
        rcases trimR_cons_shape c x with h0 | ⟨v, hv⟩
        · rw [trimR] at h0
          rcases htr : trimR x with _ | ⟨d, u⟩
          · rw [htr] at h0; simp [hcws] at h0
          · rw [htr] at h0; cases h0
        · rw [hv] at hh; cases hh
      have hhead : formatHeaderSection (c :: b) = str "# " ++ trim (c :: x) := by
        unfold formatHeaderSection
        rw [show trim (c :: b) = c :: b by rw [← hb, trim_idem, hb], hsplit]
        have : (trim (c :: x)).isEmpty = false := by
          rcases hq : trim (c :: x) with _ | _
          · exact absurd hq htx
          · rfl
        simp [List.find?, this]
      rw [← hb] at *
      have hne2 : (formatHeaderSection (trim content)).isEmpty = false := by
        rw [hb] at hhead ⊢
        rw [hhead]
        exact str_append_ne_nil (by decide)
      have hne2' : formatHeaderSection (trim content) ≠ [] := by
        intro hh
        rw [hh] at hne2
        simp at hne2
      have hfin : formatResume [(str "header", trim content)] t
          = formatHeaderSection (trim content) := by
        simp +decide [formatResume, getSectionOrder, addRemaining,
          DEFAULT_SECTION_ORDER, lookupKV, hsec, hne2', joinSep]
      rw [hfin, hb, hhead, hsplit]
      rfl

/-- C8 witness: a two-line headerless document parses to a single `header`
section and formats to a level-1 heading of its first line. -/
theorem c8_headerless_witness :
    parseMarkdownContent (str "Jane Doe\nEngineer")
      = [(str "header", str "Jane Doe\nEngineer")] ∧
    formatResume (parseMarkdownContent (str "Jane Doe\nEngineer")) (str "default")
      = str "# Jane Doe" := by
  have h := c8_headerless (str "Jane Doe\nEngineer") (by decide) (by decide)
  refine ⟨by simpa using h.1, ?_⟩
  have h2 := h.2 (str "default")
  simpa using h2

/-! ### Claim C1: round-trip stability -/

/-- C1 counterexample: `format(parse(text))` is not idempotent.  For the
single-line document `Jane Doe`, the first round renders the implicit header
section as `# Jane Doe`; re-parsing that line keys it under `jane doe` (the
catch-all header pattern) with an empty body, which the empty-section filter
drops, so the second round formats an empty map into the placeholder
document instead of reproducing `# Jane Doe`. -/
theorem c1_counterexample :
    formatResume (parseMarkdownContent (str "Jane Doe")) (str "default")
      = str "# Jane Doe" ∧
    formatResume (parseMarkdownContent (str "# Jane Doe")) (str "default")
      = str "# Resume\n\n*No content available*" ∧
    formatResume (parseMarkdownContent
        (formatResume (parseMarkdownContent (str "Jane Doe")) (str "default")))
        (str "default")
      ≠ formatResume (parseMarkdownContent (str "Jane Doe")) (str "default") := by
  refine ⟨by decide, by decide, by decide⟩

/-- The empty line is not a header. -/
lemma extract_nil : extractSectionName [] = none := by decide

/-- Inserting a fresh key appends it. -/
lemma updateKV_fresh : ∀ (m : List (Str × Str)) (k v : Str),
    k ∉ m.map Prod.fst → updateKV m k v = m ++ [(k, v)] := by
  intro m
  induction m with
  | nil => intro k v _; rfl
  | cons p r ih =>
    intro k v hk
    have h1 : ¬ p.1 = k := by
      intro hh
      exact hk (by simp [hh])
    have h2 : k ∉ r.map Prod.fst := fun hh => hk (by simp [hh])
    rcases p with ⟨pk, pv⟩
    rw [updateKV, if_neg h1, ih k v h2]
    rfl

/-- Stripping ignores a leading whitespace character. -/
lemma trim_cons_ws (c : Char) (x : Str) (h : isWS c = true) :
    trim (c :: x) = trim x := by
  unfold trim
  rw [trimL, if_pos h]

/-- Right-trimming ignores a trailing whitespace character. -/
lemma trimR_append_ws (d : Char) (hd : isWS d = true) :
    ∀ (x : Str), trimR (x ++ [d]) = trimR x := by
  intro x
  induction x with
  | nil => simp [trimR, hd]
  | cons c r ih =>
    rw [List.cons_append, trimR, ih, trimR]

/-- Left-trimming an appended string. -/
lemma trimL_append : ∀ (x y : Str),
    trimL (x ++ y) = if trimL x = [] then trimL y else trimL x ++ y := by
  intro x y
  induction x with
  | nil => simp [trimL]
  | cons c r ih =>
    rw [List.cons_append, trimL]
    by_cases h : isWS c
    · rw [if_pos h, ih, trimL, if_pos h]
    · rw [if_neg h, trimL, if_neg h]
      simp

/-- Stripping ignores a trailing whitespace character. -/
lemma trim_append_ws (d : Char) (hd : isWS d = true) (x : Str) :
    trim (x ++ [d]) = trim x := by
  unfold trim
  rw [trimL_append]
  by_cases h : trimL x = []
  · rw [if_pos h, h]
    simp [trimL, hd, trimR]
  · rw [if_neg h, trimR_append_ws d hd]

/-- Joining after appending a final chunk. -/
lemma joinNl_append_single : ∀ (L : List Str), L ≠ [] → ∀ (x : Str),
    joinNl (L ++ [x]) = joinNl L ++ '\n' :: x := by
  intro L
  induction L with
  | nil => intro h; exact absurd rfl h
  | cons y ys ih =>
    intro _ x
    rcases ys with _ | ⟨z, zs⟩
    · show joinNl [y, x] = joinNl [y] ++ '\n' :: x
      show y ++ ['\n'] ++ x = y ++ '\n' :: x
      simp
    · show joinSep ['\n'] (y :: z :: (zs ++ [x]))
          = joinSep ['\n'] (y :: z :: zs) ++ '\n' :: x
      rw [joinSep_cons₂]
      rw [show joinSep ['\n'] (z :: (zs ++ [x]))
          = joinSep ['\n'] (z :: zs) ++ '\n' :: x from ih (by simp) x]
      rw [joinSep_cons₂]
      simp

/-- Joining with an empty leading chunk prepends a newline. -/
lemma joinNl_cons_nil (L : List Str) (h : L ≠ []) :
    joinNl ([] :: L) = '\n' :: joinNl L := by
  rcases L with _ | ⟨x, xs⟩
  · exact absurd rfl h
  · rw [joinNl, joinSep_cons₂]
    rfl

/-- Splitting across an explicit separator occurrence. -/
lemma split_append_sep (sep : Char) : ∀ (xs ys : Str),
    splitOnChar sep (xs ++ sep :: ys) = splitOnChar sep xs ++ splitOnChar sep ys := by
  intro xs ys
  induction xs with
  | nil => simp [splitOnChar]
  | cons c r ih =>
    rw [List.cons_append, splitOnChar]
    by_cases h : c = sep
    · rw [if_pos h, ih]
      rw [splitOnChar, if_pos h]
      rfl
    · rw [if_neg h, ih]
      rcases hs : splitOnChar sep r with _ | ⟨l, ls⟩
      · exact absurd hs (splitOnChar_ne_nil sep r)
      · rw [splitOnChar, if_neg h, hs]
        rfl

/-- A separator-free string splits into a single chunk. -/
lemma split_nosep (sep : Char) : ∀ (xs : Str), (∀ c ∈ xs, ¬ c = sep) →
    splitOnChar sep xs = [xs] := by
  intro xs
  induction xs with
  | nil => intro _; rfl
  | cons c r ih =>
    intro h
    rw [splitOnChar, if_neg (h c (List.mem_cons_self c r)),
      ih (fun d hd => h d (List.mem_cons_of_mem c hd))]

/-- For a non-`header` name with non-blank content, `_format_section` emits
its heading, a blank line, and its transformed body. -/
lemma formatSection_block (k v t : Str) (hk : ¬ k = str "header")
    (hv : (trim v).isEmpty = false) :
    formatSection k v t = headingOf k ++ str "\n\n" ++ sectionBody k v := by
  unfold formatSection
  simp only [hv, Bool.false_eq_true, if_false, hk]
  by_cases h1 : k = str "contact"
  · subst h1
    rw [if_pos rfl]
    unfold formatContactSection
    simp only [hv, Bool.false_eq_true, if_false]
    rw [show sectionBody (str "contact") v = trim v by
      unfold sectionBody; rw [if_neg (by decide), if_neg (by decide)]]
    rw [show headingOf (str "contact") = str "## Contact" by decide]
    rw [show str "## Contact\n\n" = str "## Contact" ++ str "\n\n" by decide]
  · rw [if_neg h1]
    by_cases h2 : k = str "summary"
    · subst h2
      rw [if_pos rfl]
      unfold formatSummarySection
      simp only [hv, Bool.false_eq_true, if_false]
      rw [show sectionBody (str "summary") v = trim v by
        unfold sectionBody; rw [if_neg (by decide), if_neg (by decide)]]
      rw [show headingOf (str "summary") = str "## Professional Summary" by decide]
      rw [show str "## Professional Summary\n\n"
          = str "## Professional Summary" ++ str "\n\n" by decide]
    · rw [if_neg h2]
      by_cases h3 : k = str "experience"
      · subst h3
        rw [if_pos rfl]
        unfold formatExperienceSection
        simp only [hv, Bool.false_eq_true, if_false]
        rw [show sectionBody (str "experience") v
            = joinNl ((splitOnNl (trim v)).map expLine) by
          unfold sectionBody; rw [if_pos rfl]]
        rw [show headingOf (str "experience") = str "## Experience" by decide]
        rw [show str "## Experience\n\n" = str "## Experience" ++ str "\n\n" by decide]
      · rw [if_neg h3]
        by_cases h4 : k = str "skills"
        · subst h4
          rw [if_pos rfl]
          unfold formatSkillsSection
          simp only [hv, Bool.false_eq_true, if_false]
          rw [show headingOf (str "skills") = str "## Skills" by decide]
          rw [show sectionBody (str "skills") v
              = (if (trim v).contains ',' && !(trim v).contains '\n' then
                   joinNl ((packLoop (splitSkills (trim v)) [] [] 0).map
                     renderSkillLine)
                 else trim v) by
            unfold sectionBody; rw [if_neg (by decide), if_pos rfl]]
          rw [show str "## Skills\n\n" = str "## Skills" ++ str "\n\n" by decide]
          by_cases h5 : (trim v).contains ',' && !(trim v).contains '\n'
          · rw [if_pos h5, if_pos h5]
          · rw [if_neg h5, if_neg h5]
        · rw [if_neg h4]
          unfold formatGenericSection
          simp only [hv, Bool.false_eq_true, if_false]
          rw [show sectionBody k v = trim v by
            unfold sectionBody; rw [if_neg h3, if_neg h4]]
          rw [show headingOf k
              = str "## " ++ pyTitle (k.map (fun c => if c = '_' then ' ' else c)) by
            unfold headingOf; rw [if_neg h1, if_neg h2, if_neg h3, if_neg h4]]

/-- Splitting a single rendered block: heading, blank line, body lines. -/
lemma split_blockOf (k w : Str) (hk : (headingOf k).contains '\n' = false) :
    splitOnChar '\n' (blockOf (k, w))
      = headingOf k :: [] :: splitOnChar '\n' w := by
  have hb : blockOf (k, w) = headingOf k ++ '\n' :: ('\n' :: w) := by
    unfold blockOf
    simp [str]
  rw [hb, split_append_sep]
  rw [split_nosep '\n' (headingOf k) (by
    intro c hc hcnl
    subst hcnl
    simp at hk
    exact hk hc)]
  rw [show splitOnChar '\n' ('\n' :: w) = [] :: splitOnChar '\n' w by
    rw [splitOnChar, if_pos rfl]]
  rfl

/-- Line decomposition of a rendered block list: heading, blank line, body
lines of the first block, then the remaining stream. -/
lemma lines_decomp : ∀ (ps : List (Str × Str)) (k w : Str),
    (headingOf k).contains '\n' = false →
    (∀ p ∈ ps, (headingOf p.1).contains '\n' = false) →
    splitOnNl (blocksOf ((k, w) :: ps))
      = headingOf k :: [] :: (splitOnNl w ++ restLines ps) := by
  intro ps
  induction ps with
  | nil =>
    intro k w hk _
    show splitOnChar '\n' (joinSep (str "\n\n") [blockOf (k, w)]) = _
    rw [show joinSep (str "\n\n") [blockOf (k, w)] = blockOf (k, w) from rfl]
    rw [split_blockOf k w hk]
    simp [restLines, splitOnNl]
  | cons q ps' ih =>
    intro k w hk hps
    have hq : (headingOf q.1).contains '\n' = false :=
      hps q (List.mem_cons_self q ps')
    have hps' : ∀ p ∈ ps', (headingOf p.1).contains '\n' = false :=
      fun p hp => hps p (List.mem_cons_of_mem q hp)
    rcases q with ⟨k2, w2⟩
    have hblocks : blocksOf ((k, w) :: (k2, w2) :: ps')
        = blockOf (k, w) ++ '\n' :: ('\n' :: blocksOf ((k2, w2) :: ps')) := by
      unfold blocksOf
      rw [List.map_cons, List.map_cons, joinSep_cons₂]
      simp [str, blocksOf]
    show splitOnChar '\n' _ = _
    rw [hblocks, split_append_sep, split_blockOf k w hk]
    rw [show splitOnChar '\n' ('\n' :: blocksOf ((k2, w2) :: ps'))
        = [] :: splitOnChar '\n' (blocksOf ((k2, w2) :: ps')) by
      rw [splitOnChar, if_pos rfl]]
    rw [show splitOnChar '\n' (blocksOf ((k2, w2) :: ps'))
        = splitOnNl (blocksOf ((k2, w2) :: ps')) from rfl]
    rw [ih k2 w2 hq hps']
    simp [restLines, splitOnNl]

/-- A buffer opened by a blank line and filled with the split body commits to
the body itself, for a stripped body. -/
lemma trim_joinNl_blank_body (w : Str) (htw : trim w = w) :
    trim (joinNl ([] :: splitOnNl w)) = w := by
  have hne : splitOnNl w ≠ [] := splitOnChar_ne_nil '\n' w
  rw [joinNl_cons_nil _ hne, joinNl_splitOnNl,
    trim_cons_ws '\n' w (by decide), htw]

/-- The blank separator line appended before a commit does not change the
committed value. -/
lemma trim_joinNl_append_blank (buf : List Str) (hb : buf ≠ []) :
    trim (joinNl (buf ++ [[]])) = trim (joinNl buf) := by
  rw [joinNl_append_single buf hb []]
  rw [show (joinNl buf ++ '\n' :: [] : Str) = joinNl buf ++ ['\n'] from rfl]
  exact trim_append_ws '\n' (by decide) _

/-- The empty-section post-filter keeps every entry with non-blank value. -/
lemma filter_trim_keeps : ∀ (l : List (Str × Str)),
    (∀ p ∈ l, (trim p.2).isEmpty = false) →
    l.filter (fun kv => !(trim kv.2).isEmpty) = l := by
  intro l
  induction l with
  | nil => intro _; rfl
  | cons p r ih =>
    intro h
    rw [List.filter_cons]
    rw [ih (fun q hq => h q (List.mem_cons_of_mem p hq))]
    simp [h p (List.mem_cons_self p r)]

/-- Parsing the line stream of the remaining rendered blocks from a state
with an open fresh section: the open section commits, and each block turns
into its own entry. -/
lemma run_rest : ∀ (ps : List (Str × Str)) (S : List (Str × Str)) (kp : Str)
    (bufp : List Str),
    (∀ p ∈ ps, GoodPair p) →
    kp ∉ S.map Prod.fst →
    (∀ p ∈ ps, p.1 ∉ S.map Prod.fst ∧ ¬ p.1 = kp) →
    (ps.map Prod.fst).Nodup →
    bufp ≠ [] →
    commitP (List.foldl stepP ⟨S, some kp, bufp, true⟩ (restLines ps))
      = (S ++ [(kp, trim (joinNl bufp))]) ++ ps := by
  intro ps
  induction ps with
  | nil =>
    intro S kp bufp _ hfresh _ _ hbuf
    show commitP ⟨S, some kp, bufp, true⟩ = _
    unfold commitP
    have hbe : bufp.isEmpty = false := by
      rcases bufp with _ | _
      · exact absurd rfl hbuf
      · rfl
    simp only [hbe, Bool.false_eq_true, if_false]
    rw [updateKV_fresh S kp _ hfresh]
    simp
  | cons q ps' ih =>
    intro S kp bufp hgood hfresh hfresh2 hnodup hbuf
    rcases q with ⟨k, w⟩
    obtain ⟨hext, hknl, htw, hwne, hlines⟩ :=
      hgood (k, w) (List.mem_cons_self _ _)
    show commitP (List.foldl stepP _
      ([] :: headingOf k :: [] :: (splitOnNl w ++ restLines ps'))) = _
    rw [List.foldl_cons, List.foldl_cons, List.foldl_cons, List.foldl_append]
    have hbe : bufp.isEmpty = false := by
      rcases bufp with _ | _
      · exact absurd rfl hbuf
      · rfl
    have h1 : stepP ⟨S, some kp, bufp, true⟩ []
        = ⟨S, some kp, bufp ++ [[]], true⟩ := by
      unfold stepP
      rw [extract_nil]
      rfl
    have h2 : stepP ⟨S, some kp, bufp ++ [[]], true⟩ (headingOf k)
        = ⟨updateKV S kp (trim (joinNl (bufp ++ [[]]))), some k, [], true⟩ := by
      unfold stepP
      rw [hext]
      unfold commitP
      have hbe2 : (bufp ++ [[]]).isEmpty = false := by
        rcases bufp with _ | _ <;> rfl
      simp only [hbe2, Bool.false_eq_true, if_false]
    have h3 : stepP ⟨updateKV S kp (trim (joinNl (bufp ++ [[]]))), some k, [], true⟩ []
        = ⟨updateKV S kp (trim (joinNl (bufp ++ [[]]))), some k, [[]], true⟩ := by
      unfold stepP
      rw [extract_nil]
      rfl
    rw [h1, h2, h3]
    rw [foldl_nonheader (splitOnNl w) _ hlines (Or.inl rfl)]
    have hval : trim (joinNl (bufp ++ [[]])) = trim (joinNl bufp) :=
      trim_joinNl_append_blank bufp hbuf
    rw [hval, updateKV_fresh S kp _ hfresh]
    have hih := ih (S ++ [(kp, trim (joinNl bufp))]) k ([] :: splitOnNl w)
      (fun p hp => hgood p (List.mem_cons_of_mem _ hp))
      (by
        simp only [List.map_append, List.map_cons, List.map_nil]
        intro hmem
        rcases List.mem_append.mp hmem with h | h
        · exact (hfresh2 (k, w) (List.mem_cons_self _ _)).1 h
        · exact (hfresh2 (k, w) (List.mem_cons_self _ _)).2 (by simpa using h))
      (by
        intro p hp
        have hin := hfresh2 p (List.mem_cons_of_mem _ hp)
        have hpk : ¬ p.1 = k := by
          intro hh
          have : k ∈ ps'.map Prod.fst := by
            rw [← hh]
            exact List.mem_map_of_mem Prod.fst hp
          rw [List.map_cons] at hnodup
          exact (List.nodup_cons.mp hnodup).1 this
        constructor
        · simp only [List.map_append, List.map_cons, List.map_nil]
          intro hmem
          rcases List.mem_append.mp hmem with h | h
          · exact hin.1 h
          · exact hin.2 (by simpa using h)
        · exact hpk)
      (by
        rw [List.map_cons] at hnodup
        exact (List.nodup_cons.mp hnodup).2)
      (by simp)
    rw [show ([[]] ++ splitOnNl w : List Str) = [] :: splitOnNl w from rfl]
    rw [hih, trim_joinNl_blank_body w htw]
    simp

/-- Parsing the full rendered document of a good block list recovers exactly
the block list. -/
lemma parse_blocksOf (ps : List (Str × Str))
    (hgood : ∀ p ∈ ps, GoodPair p)
    (hnodup : (ps.map Prod.fst).Nodup)
    (hne : ps ≠ []) :
    parseMarkdownContent (blocksOf ps) = ps := by
  rcases ps with _ | ⟨⟨k, w⟩, ps'⟩
  · exact absurd rfl hne
  obtain ⟨hext, hknl, htw, hwne, hlines⟩ :=
    hgood (k, w) (List.mem_cons_self _ _)
  unfold parseMarkdownContent
  rw [lines_decomp ps' k w hknl
    (fun p hp => (hgood p (List.mem_cons_of_mem _ hp)).2.1)]
  rw [List.foldl_cons, List.foldl_cons, List.foldl_append]
  have h1 : stepP ⟨[], none, [], false⟩ (headingOf k) = ⟨[], some k, [], true⟩ := by
    unfold stepP
    rw [hext]
    rfl
  have h2 : stepP ⟨[], some k, [], true⟩ [] = ⟨[], some k, [[]], true⟩ := by
    unfold stepP
    rw [extract_nil]
    rfl
  rw [h1, h2]
  rw [foldl_nonheader (splitOnNl w) _ hlines (Or.inl rfl)]
  unfold finishP
  rw [show ([[]] ++ splitOnNl w : List Str) = [] :: splitOnNl w from rfl]
  have hrest := run_rest ps' [] k ([] :: splitOnNl w)
    (fun p hp => hgood p (List.mem_cons_of_mem _ hp))
    (by simp)
    (by
      intro p hp
      refine ⟨by simp, ?_⟩
      intro hh
      have : k ∈ ps'.map Prod.fst := by
        rw [← hh]
        exact List.mem_map_of_mem Prod.fst hp
      rw [List.map_cons] at hnodup
      exact (List.nodup_cons.mp hnodup).1 this)
    (by
      rw [List.map_cons] at hnodup
      exact (List.nodup_cons.mp hnodup).2)
    (by simp)
  rw [hrest, trim_joinNl_blank_body w htw]
  apply filter_trim_keeps
  intro p hp
  have hp' : p = (k, w) ∨ p ∈ ps' := by simpa using hp
  rcases hp' with hp' | hp'
  · rw [hp']
    show (trim w).isEmpty = false
    rw [htw]
    rcases hw : w with _ | _
    · exact absurd hw hwne
    · rfl
  · obtain ⟨_, _, htp, hpne, _⟩ := hgood p (List.mem_cons_of_mem _ hp')
    rw [htp]
    rcases hq : p.2 with _ | _
    · exact absurd hq hpne
    · rfl

/-- `filterMap` is a `map` when the function always returns `some`. -/
lemma filterMap_all_some {A B : Type} (f : A → Option B) (g : A → B) :
    ∀ (l : List A), (∀ x ∈ l, f x = some (g x)) → l.filterMap f = l.map g := by
  intro l
  induction l with
  | nil => intro _; rfl
  | cons x r ih =>
    intro h
    rw [List.filterMap_cons, h x (List.mem_cons_self x r), List.map_cons,
      ih (fun y hy => h y (List.mem_cons_of_mem x hy))]

/-- Elements of the accumulated order come from the accumulator or the keys. -/
lemma mem_addRemaining : ∀ (l acc : List Str) (x : Str),
    x ∈ addRemaining acc l → x ∈ acc ∨ x ∈ l := by
  intro l
  induction l with
  | nil => intro acc x h; exact Or.inl h
  | cons k r ih =>
    intro acc x h
    rw [addRemaining] at h
    by_cases hc : acc.contains k
    · rw [if_pos hc] at h
      rcases ih acc x h with h | h
      · exact Or.inl h
      · exact Or.inr (List.mem_cons_of_mem k h)
    · rw [if_neg hc] at h
      rcases ih (acc ++ [k]) x h with h | h
      · rcases List.mem_append.mp h with h | h
        · exact Or.inl h
        · simp at h
          exact Or.inr (by simp [h])
      · exact Or.inr (List.mem_cons_of_mem k h)

/-- The accumulator survives into the accumulated order. -/
lemma subset_addRemaining : ∀ (l acc : List Str), acc ⊆ addRemaining acc l := by
  intro l
  induction l with
  | nil => intro acc; exact fun x hx => hx
  | cons k r ih =>
    intro acc
    rw [addRemaining]
    by_cases hc : acc.contains k
    · rw [if_pos hc]
      exact ih acc
    · rw [if_neg hc]
      exact fun x hx => ih (acc ++ [k]) (List.mem_append_left [k] hx)

/-- Every key enters the accumulated order. -/
lemma mem_addRemaining_of_mem : ∀ (l acc : List Str) (x : Str),
    x ∈ l → x ∈ addRemaining acc l := by
  intro l
  induction l with
  | nil => intro acc x h; cases h
  | cons k r ih =>
    intro acc x h
    rw [addRemaining]
    by_cases hc : acc.contains k
    · rw [if_pos hc]
      rcases List.mem_cons.mp h with h | h
      · subst h
        exact subset_addRemaining r acc (by simpa using hc)
      · exact ih acc x h
    · rw [if_neg hc]
      rcases List.mem_cons.mp h with h | h
      · subst h
        exact subset_addRemaining r (acc ++ [x]) (by simp)
      · exact ih (acc ++ [k]) x h

/-- Order entries are present keys. -/
lemma mem_gso (m : List (Str × Str)) (x : Str) (hx : x ∈ getSectionOrder m) :
    x ∈ m.map Prod.fst := by
  unfold getSectionOrder at hx
  rcases mem_addRemaining _ _ x hx with h | h
  · have h2 := (List.mem_filter.mp h).2
    simpa using h2
  · exact h

/-- Present keys appear in the order. -/
lemma keys_mem_gso (m : List (Str × Str)) (x : Str) (hx : x ∈ m.map Prod.fst) :
    x ∈ getSectionOrder m := by
  unfold getSectionOrder
  exact mem_addRemaining_of_mem _ _ x hx

/-- Successful lookup for a present key, with its entry. -/
lemma lookupKV_mem : ∀ (m : List (Str × Str)) (k : Str), k ∈ m.map Prod.fst →
    ∃ v, lookupKV m k = some v ∧ (k, v) ∈ m := by
  intro m
  induction m with
  | nil => intro k h; simp at h
  | cons p r ih =>
    intro k h
    rcases p with ⟨pk, pv⟩
    by_cases hpk : pk = k
    · subst hpk
      exact ⟨pv, by rw [lookupKV, if_pos rfl], List.mem_cons_self _ _⟩
    · have hk : k ∈ r.map Prod.fst := by
        rw [List.map_cons] at h
        rcases List.mem_cons.mp h with h1 | h1
        · exact absurd h1.symm hpk
        · exact h1
      obtain ⟨v, hv, hmem⟩ := ih k hk
      exact ⟨v, by rw [lookupKV, if_neg hpk]; exact hv,
        List.mem_cons_of_mem _ hmem⟩

/-- Lookup over a graph-shaped association list. -/
lemma lookupKV_graph : ∀ (l : List Str) (g : Str → Str) (k : Str),
    k ∈ l → lookupKV (l.map (fun x => (x, g x))) k = some (g k) := by
  intro l
  induction l with
  | nil => intro g k h; cases h
  | cons a r ih =>
    intro g k h
    rw [List.map_cons, lookupKV]
    by_cases ha : a = k
    · subst ha
      rw [if_pos rfl]
    · rw [if_neg ha]
      rcases List.mem_cons.mp h with h1 | h1
      · exact absurd h1.symm ha
      · exact ih g k h1

/-- A rendered block is never the empty string. -/
lemma blockOf_ne (k w : Str) :
    (headingOf k ++ str "\n\n" ++ w).isEmpty = false := by
  unfold headingOf
  split
  · rfl
  · split
    · rfl
    · split
      · rfl
      · split
        · rfl
        · simp [str]

/-- Unpack the stability conditions of one pair. -/
lemma stablePair_spec (k v : Str) (h : stablePair k v = true) :
    ¬ k = str "header" ∧ (trim v).isEmpty = false ∧
    extractSectionName (headingOf k) = some k ∧
    (headingOf k).contains '\n' = false ∧
    (sectionBody k v).isEmpty = false ∧
    trim (sectionBody k v) = sectionBody k v ∧
    (∀ l ∈ splitOnNl (sectionBody k v), extractSectionName l = none) ∧
    sectionBody k (sectionBody k v) = sectionBody k v := by
  unfold stablePair at h
  simp only [Bool.and_eq_true, decide_eq_true_eq, Bool.not_eq_true',
    List.all_eq_true, Option.isNone_iff_eq_none] at h
  obtain ⟨⟨⟨⟨⟨⟨⟨h1, h2⟩, h3⟩, h4⟩, h5⟩, h6⟩, h7⟩, h8⟩ := h
  exact ⟨h1, h2, h3, h4, h5, h6, h7, h8⟩

/-- Unpack the stability conditions of a map. -/
lemma stableMap_spec (m : List (Str × Str)) (h : stableMap m = true) :
    m ≠ [] ∧ (m.map Prod.fst).Nodup ∧ ∀ p ∈ m, stablePair p.1 p.2 = true := by
  unfold stableMap at h
  simp only [Bool.and_eq_true, decide_eq_true_eq, Bool.not_eq_true',
    List.all_eq_true, List.isEmpty_iff] at h
  obtain ⟨⟨h1, h2⟩, h3⟩ := h
  refine ⟨?_, h2, h3⟩
  intro hh
  rw [hh] at h1
  simp at h1

/-- Each key of the order of a stable map carries a stable value. -/
lemma stable_get (m : List (Str × Str)) (h : stableMap m = true) :
    ∀ k ∈ getSectionOrder m,
      ∃ v, lookupKV m k = some v ∧ stablePair k v = true := by
  intro k hk
  obtain ⟨v, hv, hmem⟩ := lookupKV_mem m k (mem_gso m k hk)
  exact ⟨v, hv, (stableMap_spec m h).2.2 (k, v) hmem⟩

/-- Formatting a stable map yields exactly its rendered blocks. -/
lemma format_blocks (m : List (Str × Str)) (t : Str) (h : stableMap m = true) :
    formatResume m t = blocksOf (stableParsePairs m) := by
  obtain ⟨hmne, hnd, _⟩ := stableMap_spec m h
  have hne : m.isEmpty = false := by
    rcases m with _ | _
    · exact absurd rfl hmne
    · rfl
  unfold formatResume blocksOf stableParsePairs
  simp only [hne, Bool.false_eq_true, if_false, List.map_map]
  apply congrArg (joinSep (str "\n\n"))
  apply filterMap_all_some
  intro k hk
  obtain ⟨v, hv, hsp⟩ := stable_get m h k hk
  obtain ⟨s1, s2, _, _, s5, s6, _, _⟩ := stablePair_spec k v hsp
  rw [hv]
  show (if (formatSection k v t).isEmpty = true then none
      else some (formatSection k v t))
    = some (blockOf (k, sectionBody k ((lookupKV m k).getD [])))
  rw [hv, formatSection_block k v t s1 s2]
  rw [if_neg (by rw [blockOf_ne]; exact fun hh => Bool.noConfusion hh)]
  rfl

/-- `_get_section_order` is a fixed point on a map whose keys are already in
order. -/
lemma gso_idem (m : List (Str × Str)) (hnd : (m.map Prod.fst).Nodup)
    (m' : List (Str × Str)) (hk : m'.map Prod.fst = getSectionOrder m) :
    getSectionOrder m' = m'.map Prod.fst := by
  have hnd' : (m'.map Prod.fst).Nodup := by
    rw [hk]
    exact gso_nodup m hnd
  rw [gso_eq m' hnd', hk, gso_eq m hnd]
  have h5 : DEFAULT_SECTION_ORDER.filter (fun s => decide (s ∈
        DEFAULT_SECTION_ORDER.filter (fun s => decide (s ∈ m.map Prod.fst))
        ++ (m.map Prod.fst).filter (fun k => decide (k ∉ DEFAULT_SECTION_ORDER))))
      = DEFAULT_SECTION_ORDER.filter (fun s => decide (s ∈ m.map Prod.fst)) := by
    apply List.filter_congr
    intro d hd
    have : (d ∈ DEFAULT_SECTION_ORDER.filter
          (fun s => decide (s ∈ m.map Prod.fst))
        ++ (m.map Prod.fst).filter (fun k => decide (k ∉ DEFAULT_SECTION_ORDER)))
        ↔ d ∈ m.map Prod.fst := by
      constructor
      · intro hmem
        rcases List.mem_append.mp hmem with h1 | h1
        · have := (List.mem_filter.mp h1).2
          simpa using this
        · exact (List.mem_filter.mp h1).1
      · intro hmem
        exact List.mem_append_left _
          (List.mem_filter.mpr ⟨hd, by simpa using hmem⟩)
    exact decide_eq_decide.mpr this
  have h6 : (DEFAULT_SECTION_ORDER.filter (fun s => decide (s ∈ m.map Prod.fst))
        ++ (m.map Prod.fst).filter
            (fun k => decide (k ∉ DEFAULT_SECTION_ORDER))).filter
          (fun k => decide (k ∉ DEFAULT_SECTION_ORDER))
      = (m.map Prod.fst).filter (fun k => decide (k ∉ DEFAULT_SECTION_ORDER)) := by
    rw [List.filter_append]
    have hA : (DEFAULT_SECTION_ORDER.filter
          (fun s => decide (s ∈ m.map Prod.fst))).filter
            (fun k => decide (k ∉ DEFAULT_SECTION_ORDER)) = [] := by
      apply List.filter_eq_nil_iff.mpr
      intro a ha
      have := (List.mem_filter.mp ha).1
      simp [this]
    have hR : ((m.map Prod.fst).filter
          (fun k => decide (k ∉ DEFAULT_SECTION_ORDER))).filter
            (fun k => decide (k ∉ DEFAULT_SECTION_ORDER))
        = (m.map Prod.fst).filter (fun k => decide (k ∉ DEFAULT_SECTION_ORDER)) := by
      apply List.filter_eq_self.mpr
      intro a ha
      exact (List.mem_filter.mp ha).2
    rw [hA, hR]
    rfl
  rw [h5, h6]

/-- Keys of a graph-shaped association list. -/
lemma map_fst_graph (l : List Str) (g : Str → Str) :
    (l.map (fun x => (x, g x))).map Prod.fst = l := by
  induction l with
  | nil => rfl
  | cons a r ih => simp [ih]

/-- The re-parsed stable map formats to the same document. -/
lemma format_stable_again (m : List (Str × Str)) (t : Str)
    (h : stableMap m = true) :
    formatResume (stableParsePairs m) t = formatResume m t := by
  obtain ⟨hmne, hnd, _⟩ := stableMap_spec m h
  have hkeys : (stableParsePairs m).map Prod.fst = getSectionOrder m := by
    unfold stableParsePairs
    exact map_fst_graph _ _
  have hsppne : stableParsePairs m ≠ [] := by
    rcases m with _ | ⟨p, r⟩
    · exact absurd rfl hmne
    · intro hh
      have h1 : p.1 ∈ getSectionOrder (p :: r) :=
        keys_mem_gso (p :: r) p.1 (by simp)
      rw [← hkeys, hh] at h1
      cases h1
  have hsppe : (stableParsePairs m).isEmpty = false := by
    rcases hq : stableParsePairs m with _ | _
    · exact absurd hq hsppne
    · rfl
  rw [format_blocks m t h]
  unfold formatResume blocksOf
  simp only [hsppe, Bool.false_eq_true, if_false]
  apply congrArg (joinSep (str "\n\n"))
  rw [gso_idem m hnd _ hkeys, hkeys]
  unfold stableParsePairs
  rw [List.map_map]
  apply filterMap_all_some
  intro k hk
  obtain ⟨v, hv, hsp⟩ := stable_get m h k hk
  obtain ⟨s1, _, _, _, s5, s6, _, s8⟩ := stablePair_spec k v hsp
  have hlook : lookupKV ((getSectionOrder m).map
        (fun x => (x, sectionBody x ((lookupKV m x).getD [])))) k
      = some (sectionBody k ((lookupKV m k).getD [])) :=
    lookupKV_graph (getSectionOrder m) _ k hk
  rw [hlook]
  show (if (formatSection k (sectionBody k ((lookupKV m k).getD [])) t).isEmpty
        = true then none
      else some (formatSection k (sectionBody k ((lookupKV m k).getD [])) t))
    = some (blockOf (k, sectionBody k ((lookupKV m k).getD [])))
  rw [hv]
  show (if (formatSection k (sectionBody k v) t).isEmpty = true then none
      else some (formatSection k (sectionBody k v) t))
    = some (blockOf (k, sectionBody k v))
  have hwne : (trim (sectionBody k v)).isEmpty = false := by
    rw [s6]
    exact s5
  rw [formatSection_block k (sectionBody k v) t s1 hwne, s8]
  rw [if_neg (by rw [blockOf_ne]; exact fun hh => Bool.noConfusion hh)]
  rfl

/-- C1 amended.  `format(parse(text))` is idempotent whenever the parsed map
is stable: no section is keyed `header`, each rendered heading line reparses
to its own key, and each rendered body is non-empty, stripped, free of
header-recognizable lines, and a fixed point of its per-section transform. -/
theorem c1_amended (content t : Str)
    (h : stableMap (parseMarkdownContent content) = true) :
    formatResume (parseMarkdownContent
        (formatResume (parseMarkdownContent content) t)) t
      = formatResume (parseMarkdownContent content) t := by
  obtain ⟨hmne, hnd, _⟩ := stableMap_spec (parseMarkdownContent content) h
  have hkeys : (stableParsePairs (parseMarkdownContent content)).map Prod.fst
      = getSectionOrder (parseMarkdownContent content) := by
    unfold stableParsePairs
    exact map_fst_graph _ _
  have h1 := format_blocks (parseMarkdownContent content) t h
  rw [h1]
  have h2 : parseMarkdownContent
      (blocksOf (stableParsePairs (parseMarkdownContent content)))
      = stableParsePairs (parseMarkdownContent content) := by
    apply parse_blocksOf
    · intro p hp
      obtain ⟨k, hk, hpk⟩ := List.mem_map.mp hp
      obtain ⟨v, hv, hsp⟩ := stable_get (parseMarkdownContent content) h k hk
      obtain ⟨_, _, s3, s4, s5, s6, s7, _⟩ := stablePair_spec k v hsp
      rw [← hpk]
      refine ⟨by simpa [hv] using s3, by simpa [hv] using s4,
        by simpa [hv] using s6, ?_, by simpa [hv] using s7⟩
      intro hh
      have hh2 : sectionBody k v = [] := by simpa [hv] using hh
      rw [hh2] at s5
      cases s5
    · rw [hkeys]
      exact gso_nodup (parseMarkdownContent content) hnd
    · rcases hq : parseMarkdownContent content with _ | ⟨p, r⟩
      · exact absurd hq hmne
      · intro hh
        have hm : p.1 ∈ getSectionOrder (parseMarkdownContent content) := by
          rw [hq]
          exact keys_mem_gso _ p.1 (by simp)
        rw [← hkeys, hq, hh] at hm
        exact absurd hm (by simp)
  rw [h2, format_stable_again (parseMarkdownContent content) t h]
  exact h1

/-- C1 amended witness: a two-section document whose parse is stable, hence
whose format/parse round trip is idempotent. -/
theorem c1_amended_witness :
    stableMap (parseMarkdownContent
      (str "## Skills\n- Python • Go\n## Education\nMIT")) = true ∧
    formatResume (parseMarkdownContent
        (formatResume (parseMarkdownContent
          (str "## Skills\n- Python • Go\n## Education\nMIT")) (str "default")))
        (str "default")
      = formatResume (parseMarkdownContent
          (str "## Skills\n- Python • Go\n## Education\nMIT")) (str "default") := by
  refine ⟨by decide, ?_⟩
  exact c1_amended (str "## Skills\n- Python • Go\n## Education\nMIT")
    (str "default") (by decide)

/-! ### Claim C3: entry count for documents of recognized headers -/

/-- C3 counterexample: a document with content before its first header gains
an extra implicit `header` entry.  `"Jane Doe\n## Skills\nPython"` has one
recognized header but parses to two entries, one of which (`header`) is not
the canonical name of any header in the document. -/
theorem c3_counterexample :
    ((splitOnNl (str "Jane Doe\n## Skills\nPython")).filter
        (fun l => (extractSectionName l).isSome)) = [str "## Skills"] ∧
    parseMarkdownContent (str "Jane Doe\n## Skills\nPython")
      = [(str "header", str "Jane Doe"), (str "skills", str "Python")] ∧
    (parseMarkdownContent (str "Jane Doe\n## Skills\nPython")).length = 2 := by
  refine ⟨by decide, by decide, by decide⟩

/-- Keys after an insert-or-overwrite. -/
lemma updateKV_keys : ∀ (S : List (Str × Str)) (k v : Str),
    (updateKV S k v).map Prod.fst
      = if k ∈ S.map Prod.fst then S.map Prod.fst else S.map Prod.fst ++ [k] := by
  intro S
  induction S with
  | nil => intro k v; simp [updateKV]
  | cons p r ih =>
    intro k v
    rcases p with ⟨pk, pv⟩
    rw [updateKV]
    by_cases hpk : pk = k
    · subst hpk
      rw [if_pos rfl]
      simp
    · rw [if_neg hpk, List.map_cons, ih k v, List.map_cons]
      by_cases hk : k ∈ r.map Prod.fst
      · rw [if_pos hk, if_pos (by simp [hk])]
      · rw [if_neg hk, if_neg (by
          simp only [List.mem_cons]
          rintro (h | h)
          · exact hpk h.symm
          · exact hk h)]
        rfl

/-- Committing either keeps the keys or appends the (fresh) open name. -/
lemma commitP_keys (st : PState) :
    (commitP st).map Prod.fst = st.sections.map Prod.fst ∨
    ∃ c, st.cur = some c ∧ c ∉ st.sections.map Prod.fst ∧
      (commitP st).map Prod.fst = st.sections.map Prod.fst ++ [c] := by
  rcases hcur : st.cur with _ | c
  · left
    unfold commitP
    rw [hcur]
  · by_cases hbuf : st.buf.isEmpty
    · left
      unfold commitP
      rw [hcur]
      simp [hbuf]
    · have hred : commitP st = updateKV st.sections c (trim (joinNl st.buf)) := by
        unfold commitP
        rw [hcur]
        simp [hbuf]
      by_cases hk : c ∈ st.sections.map Prod.fst
      · left
        rw [hred, updateKV_keys, if_pos hk]
      · right
        exact ⟨c, rfl, hk, by rw [hred, updateKV_keys, if_neg hk]⟩

/-- Parsing invariant: with the header flag set, every committed key and the
open name satisfy any predicate that holds of all extracted names, and the
committed keys stay duplicate-free. -/
lemma parse_inv (P : Str → Prop) : ∀ (L : List Str) (st : PState),
    st.hf = true →
    (∀ l ∈ L, ∀ c, extractSectionName l = some c → P c) →
    (∀ k ∈ st.sections.map Prod.fst, P k) →
    (∀ c, st.cur = some c → P c) →
    (st.sections.map Prod.fst).Nodup →
    (∀ k ∈ (L.foldl stepP st).sections.map Prod.fst, P k) ∧
    (∀ c, (L.foldl stepP st).cur = some c → P c) ∧
    ((L.foldl stepP st).sections.map Prod.fst).Nodup ∧
    (L.foldl stepP st).hf = true := by
  intro L
  induction L with
  | nil =>
    intro st h1 _ h3 h4 h5
    exact ⟨h3, h4, h5, h1⟩
  | cons l rest ih =>
    intro st hhf hL hsec hcur hnd
    have hrest : ∀ l' ∈ rest, ∀ c, extractSectionName l' = some c → P c :=
      fun l' hl' => hL l' (List.mem_cons_of_mem l hl')
    rw [List.foldl_cons]
    rcases hext : extractSectionName l with _ | c
    · have hst : stepP st l = ⟨st.sections, st.cur, st.buf ++ [l], st.hf⟩ := by
        unfold stepP
        rw [hext]
        simp [hhf]
      rw [hst]
      exact ih ⟨st.sections, st.cur, st.buf ++ [l], st.hf⟩ hhf hrest hsec hcur hnd
    · have hst : stepP st l = ⟨commitP st, some c, [], true⟩ := by
        unfold stepP
        rw [hext]
      rw [hst]
      have hPc : P c := hL l (List.mem_cons_self l rest) c hext
      rcases commitP_keys st with hck | ⟨c0, hc0, hc0f, hck⟩
      · exact ih ⟨commitP st, some c, [], true⟩ rfl hrest
          (by rw [hck] at *; exact fun k hk => hsec k hk)
          (by intro c' hc'; cases hc'; exact hPc)
          (by rw [hck]; exact hnd)
      · refine ih ⟨commitP st, some c, [], true⟩ rfl hrest ?_ ?_ ?_
        · intro k hk
          rw [hck] at hk
          rcases List.mem_append.mp hk with h | h
          · exact hsec k h
          · have : k = c0 := by simpa using h
            subst this
            exact hcur k hc0
        · intro c' hc'
          cases hc'
          exact hPc
        · rw [hck]
          simp [List.nodup_append, hnd, hc0f]

/-- Keys of the full parse satisfy any predicate holding of the extracted
names, and are duplicate-free, provided the document opens with a header. -/
lemma parse_keys (content : Str) (P : Str → Prop)
    (hfirst : (extractSectionName ((splitOnNl content).headD [])).isSome = true)
    (hlines : ∀ l ∈ splitOnNl content, ∀ c,
      extractSectionName l = some c → P c) :
    (∀ k ∈ (parseMarkdownContent content).map Prod.fst, P k) ∧
    ((parseMarkdownContent content).map Prod.fst).Nodup := by
  unfold parseMarkdownContent
  rcases hs : splitOnNl content with _ | ⟨l0, rest⟩
  · exact absurd hs (splitOnChar_ne_nil '\n' content)
  · rw [hs] at hfirst
    rcases hext : extractSectionName l0 with _ | c0
    · rw [List.headD_cons, hext] at hfirst
      cases hfirst
    · have hPc0 : P c0 := by
        apply hlines l0 _ c0 hext
        rw [hs]
        exact List.mem_cons_self l0 rest
      rw [List.foldl_cons]
      have hst : stepP ⟨[], none, [], false⟩ l0 = ⟨[], some c0, [], true⟩ := by
        unfold stepP
        rw [hext]
        rfl
      rw [hst]
      have hrest : ∀ l' ∈ rest, ∀ c, extractSectionName l' = some c → P c := by
        intro l' hl'
        apply hlines l'
        rw [hs]
        exact List.mem_cons_of_mem l0 hl'
      obtain ⟨hks, hcur, hnd, _⟩ := parse_inv P rest ⟨[], some c0, [], true⟩ rfl
        hrest (by intro k hk; cases hk)
        (by intro c hc; cases hc; exact hPc0) (by exact List.nodup_nil)
      set stF := rest.foldl stepP ⟨[], some c0, [], true⟩ with hstF
      have hcomP : ∀ k ∈ (commitP stF).map Prod.fst, P k := by
        intro k hk
        rcases commitP_keys stF with hck | ⟨c1, hc1, _, hck⟩
        · rw [hck] at hk
          exact hks k hk
        · rw [hck] at hk
          rcases List.mem_append.mp hk with h | h
          · exact hks k h
          · have hkc : k = c1 := by simpa using h
            subst hkc
            exact hcur k hc1
      have hcomN : ((commitP stF).map Prod.fst).Nodup := by
        rcases commitP_keys stF with hck | ⟨c1, hc1, hc1f, hck⟩
        · rw [hck]
          exact hnd
        · rw [hck]
          simp [List.nodup_append, hnd, hc1f]
      constructor
      · intro k hk
        obtain ⟨p, hp, hpk⟩ := List.mem_map.mp hk
        subst hpk
        exact hcomP p.1 (List.mem_map_of_mem Prod.fst (List.mem_of_mem_filter hp))
      · have hsub : ((finishP stF).map Prod.fst).Sublist
            ((commitP stF).map Prod.fst) := by
          unfold finishP
          exact List.Sublist.map Prod.fst (List.filter_sublist _)
        exact hcomN.sublist hsub

/-- C3 amended.  For a document that opens with a recognized header (no
content precedes the first header) and all of whose header lines extract to
canonical names of the recognized synonyms, parsing produces at most N
entries, where N is the number of distinct header lines; every key of the
result is the extracted name of one of those header lines, hence one of the
canonical names. -/
theorem c3_entry_count (content : Str)
    (hfirst : (extractSectionName ((splitOnNl content).headD [])).isSome = true)
    (hsyn : ∀ l ∈ splitOnNl content,
      extractSectionName l = none ∨
      ∃ c, extractSectionName l = some c ∧ c ∈ CANONICAL_NAMES) :
    (parseMarkdownContent content).length
      ≤ ((splitOnNl content).filter
          (fun l => (extractSectionName l).isSome)).dedup.length ∧
    (∀ p ∈ parseMarkdownContent content,
      ∃ l ∈ splitOnNl content, extractSectionName l = some p.1) ∧
    (∀ p ∈ parseMarkdownContent content, p.1 ∈ CANONICAL_NAMES) := by
  obtain ⟨hkeysP, hnd⟩ := parse_keys content
    (fun k => ∃ l ∈ splitOnNl content, extractSectionName l = some k) hfirst
    (fun l hl c hc => ⟨l, hl, hc⟩)
  refine ⟨?_, ?_, ?_⟩
  · have hlen : (parseMarkdownContent content).length
        = ((parseMarkdownContent content).map Prod.fst).length := by simp
    rw [hlen]
    have hsubset : ∀ k ∈ (parseMarkdownContent content).map Prod.fst,
        k ∈ ((splitOnNl content).filter
            (fun l => (extractSectionName l).isSome)).map
          (fun l => (extractSectionName l).getD []) := by
      intro k hk
      obtain ⟨l, hl, hc⟩ := hkeysP k hk
      apply List.mem_map.mpr
      refine ⟨l, ?_, by rw [hc]; rfl⟩
      apply List.mem_filter.mpr
      exact ⟨hl, by rw [hc]; rfl⟩
    calc ((parseMarkdownContent content).map Prod.fst).length
        = ((parseMarkdownContent content).map Prod.fst).toFinset.card :=
          (List.toFinset_card_of_nodup hnd).symm
      _ ≤ (((splitOnNl content).filter
            (fun l => (extractSectionName l).isSome)).map
              (fun l => (extractSectionName l).getD [])).toFinset.card := by
          apply Finset.card_le_card
          intro x hx
          rw [List.mem_toFinset] at hx ⊢
          exact hsubset x hx
      _ = (((splitOnNl content).filter
            (fun l => (extractSectionName l).isSome)).toFinset.image
              (fun l => (extractSectionName l).getD [])).card := by
          congr 1
          apply Finset.ext
          intro a
          simp
      _ ≤ ((splitOnNl content).filter
            (fun l => (extractSectionName l).isSome)).toFinset.card :=
          Finset.card_image_le
      _ = ((splitOnNl content).filter
            (fun l => (extractSectionName l).isSome)).dedup.length :=
          List.card_toFinset _
  · intro p hp
    exact hkeysP p.1 (List.mem_map_of_mem Prod.fst hp)
  · intro p hp
    obtain ⟨l, hl, hc⟩ := hkeysP p.1 (List.mem_map_of_mem Prod.fst hp)
    rcases hsyn l hl with h | ⟨c, hc2, hmem⟩
    · rw [h] at hc
      cases hc
    · rw [hc2] at hc
      have hcp := Option.some.inj hc
      rw [← hcp]
      exact hmem

/-- C3 amended witness: a two-header document with no pre-header content
parses to exactly two entries keyed by the canonical names. -/
theorem c3_entry_count_witness :
    (parseMarkdownContent (str "## Skills\nPython, Go\n## Education\nMIT")).length
      ≤ ((splitOnNl (str "## Skills\nPython, Go\n## Education\nMIT")).filter
          (fun l => (extractSectionName l).isSome)).dedup.length ∧
    (∀ p ∈ parseMarkdownContent (str "## Skills\nPython, Go\n## Education\nMIT"),
      p.1 ∈ CANONICAL_NAMES) := by
  have h := c3_entry_count (str "## Skills\nPython, Go\n## Education\nMIT")
    (by decide) (by decide)
  exact ⟨h.1, h.2.2⟩

/-! ### Claim C9: prefix-based header recognition -/

/-- `Char.ofNat` of a valid small code point. -/
lemma char_toNat_ofNat_small (n : Nat) (h : n < 55296) :
    (Char.ofNat n).toNat = n := by
  unfold Char.ofNat
  rw [dif_pos (Or.inl (by exact_mod_cast h))]
  rfl

/-- Character equality through code points. -/
lemma char_eq_iff_toNat (c d : Char) : c = d ↔ c.toNat = d.toNat := by
  rw [Char.ext_iff, UInt32.ext_iff]
  exact Iff.rfl

/-- Code-point characterization of the Python whitespace class. -/
lemma isWS_true_iff (c : Char) : isWS c = true ↔
    (c.toNat = 32 ∨ c.toNat = 9 ∨ c.toNat = 10 ∨ c.toNat = 13 ∨
     c.toNat = 11 ∨ c.toNat = 12) := by
  unfold isWS
  simp only [Bool.or_eq_true, decide_eq_true_eq]
  rw [char_eq_iff_toNat c ' ', char_eq_iff_toNat c '\t', char_eq_iff_toNat c '\n',
    char_eq_iff_toNat c '\r', char_eq_iff_toNat c '\x0b', char_eq_iff_toNat c '\x0c']
  show ((((c.toNat = 32 ∨ c.toNat = 9) ∨ c.toNat = 10) ∨ c.toNat = 13) ∨
      c.toNat = 11) ∨ c.toNat = 12 ↔ _
  tauto

/-- Lowercasing does not change whether a character is whitespace. -/
lemma isWS_toLower (c : Char) : isWS (Char.toLower c) = isWS c := by
  show isWS (if c.toNat ≥ 65 ∧ c.toNat ≤ 90 then Char.ofNat (c.toNat + 32) else c)
      = isWS c
  by_cases h : c.toNat ≥ 65 ∧ c.toNat ≤ 90
  · rw [if_pos h]
    have ht : (Char.ofNat (c.toNat + 32)).toNat = c.toNat + 32 :=
      char_toNat_ofNat_small _ (by omega)
    have hL : isWS (Char.ofNat (c.toNat + 32)) = false := by
      rw [← Bool.not_eq_true, isWS_true_iff, ht]
      omega
    have hR : isWS c = false := by
      rw [← Bool.not_eq_true, isWS_true_iff]
      omega
    rw [hL, hR]
  · rw [if_neg h]

/-- Lowercasing is idempotent on characters. -/
lemma toLower_idem (c : Char) : Char.toLower (Char.toLower c) = Char.toLower c := by
  by_cases h : c.toNat ≥ 65 ∧ c.toNat ≤ 90
  · have h1 : Char.toLower c = Char.ofNat (c.toNat + 32) := by
      show (if c.toNat ≥ 65 ∧ c.toNat ≤ 90 then Char.ofNat (c.toNat + 32) else c) = _
      rw [if_pos h]
    have ht : (Char.ofNat (c.toNat + 32)).toNat = c.toNat + 32 :=
      char_toNat_ofNat_small _ (by omega)
    rw [h1]
    show (if (Char.ofNat (c.toNat + 32)).toNat ≥ 65 ∧
        (Char.ofNat (c.toNat + 32)).toNat ≤ 90 then _ else _) = _
    rw [if_neg (by rw [ht]; omega)]
  · have h1 : Char.toLower c = c := by
      show (if c.toNat ≥ 65 ∧ c.toNat ≤ 90 then Char.ofNat (c.toNat + 32) else c) = c
      rw [if_neg h]
    rw [h1, h1]

/-- Lowercasing distributes over concatenation. -/
lemma low_append (a b : Str) : low (a ++ b) = low a ++ low b :=
  List.map_append _ a b

/-- Lowercasing a string is idempotent. -/
lemma low_idem (s : Str) : low (low s) = low s := by
  unfold low
  rw [List.map_map]
  exact List.map_congr_left (fun c _ => toLower_idem c)

/-- Left-trimming commutes with lowercasing. -/
lemma trimL_low : ∀ (s : Str), trimL (low s) = low (trimL s) := by
  intro s
  induction s with
  | nil => rfl
  | cons c r ih =>
    show trimL (Char.toLower c :: low r) = low (trimL (c :: r))
    rw [trimL, trimL, isWS_toLower]
    by_cases h : isWS c
    · rw [if_pos h, if_pos h, ih]
    · rw [if_neg h, if_neg h]
      rfl

/-- Right-trimming commutes with lowercasing. -/
lemma trimR_low : ∀ (s : Str), trimR (low s) = low (trimR s) := by
  intro s
  induction s with
  | nil => rfl
  | cons c r ih =>
    show trimR (Char.toLower c :: low r) = low (trimR (c :: r))
    rw [trimR, trimR, ih]
    rcases htr : trimR r with _ | ⟨d, u⟩
    · show (if isWS (Char.toLower c) = true then [] else [Char.toLower c])
          = low (if isWS c = true then [] else [c])
      rw [isWS_toLower]
      by_cases h : isWS c
      · rw [if_pos h, if_pos h]
        rfl
      · rw [if_neg h, if_neg h]
        rfl
    · rfl

/-- Stripping commutes with lowercasing. -/
lemma low_trim (s : Str) : low (trim s) = trim (low s) := by
  unfold trim
  rw [trimL_low, trimR_low]

/-- Normalization only depends on the lowercase form of the raw name. -/
lemma normalize_of_low (x u : Str) (hx : low x = u) :
    normalizeSectionName (trim x) = normalizeSectionName u := by
  unfold normalizeSectionName
  rw [low_trim, trim_idem, hx]
  rw [show low u = u by rw [← hx, low_idem]]

/-- A word is a prefix of itself extended by anything. -/
lemma isPrefixOf_self_append : ∀ (w z : Str), w.isPrefixOf (w ++ z) = true := by
  intro w z
  induction w with
  | nil => cases z <;> rfl
  | cons a as ih =>
    show List.isPrefixOf (a :: as) (a :: (as ++ z)) = true
    have hred : List.isPrefixOf (a :: as) (a :: (as ++ z))
        = ((a == a) && List.isPrefixOf as (as ++ z)) := rfl
    rw [hred, ih, beq_self_eq_true, Bool.and_true]

/-- A word that disagrees with `s` inside their common length is a prefix of
no extension of `s`. -/
lemma not_pref_of_mismatch : ∀ (w s z : Str), mismatchWithin w s = true →
    w.isPrefixOf (s ++ z) = false := by
  intro w
  induction w with
  | nil => intro s z h; simp [mismatchWithin] at h
  | cons a as ih =>
    intro s z h
    rcases s with _ | ⟨b, bs⟩
    · simp [mismatchWithin] at h
    · have hred : List.isPrefixOf (a :: as) (b :: (bs ++ z))
          = ((a == b) && List.isPrefixOf as (bs ++ z)) := rfl
      by_cases hab : a = b
      · subst hab
        have h2 : mismatchWithin as bs = true := by
          unfold mismatchWithin at h ⊢
          simpa using h
        show List.isPrefixOf (a :: as) (a :: (bs ++ z)) = false
        rw [hred, ih bs z h2, Bool.and_false]
      · show List.isPrefixOf (a :: as) (b :: (bs ++ z)) = false
        rw [hred, beq_eq_false_iff_ne.mpr hab, Bool.false_and]

/-- Testing a one-character extension against a differing continuation. -/
lemma isPrefixOf_snoc_cons (w : Str) (a b : Char) (z : Str) :
    (w ++ [a]).isPrefixOf (w ++ b :: z) = (a == b) := by
  induction w with
  | nil =>
    show ((a == b) && List.isPrefixOf ([] : Str) z) = (a == b)
    rw [show List.isPrefixOf ([] : Str) z = true by cases z <;> rfl, Bool.and_true]
  | cons c w' ih =>
    show ((c == c) && List.isPrefixOf (w' ++ [a]) (w' ++ b :: z)) = (a == b)
    rw [ih, beq_self_eq_true, Bool.true_and]

/-- A one-character extension is no prefix of the base word alone. -/
lemma isPrefixOf_snoc_nil (w : Str) (a : Char) :
    (w ++ [a]).isPrefixOf w = false := by
  induction w with
  | nil => rfl
  | cons c w' ih =>
    show ((c == c) && List.isPrefixOf (w' ++ [a]) w') = false
    rw [ih, beq_self_eq_true, Bool.true_and]

/-- Successful `lit` match. -/
lemma altMatch_lit_some (w rest tail : Str) (hlow : low rest = w ++ tail) :
    altMatch (.lit w) rest = some w.length := by
  simp only [altMatch]
  rw [hlow, isPrefixOf_self_append]
  rfl

/-- Failing `lit` match, from a mismatch certificate. -/
lemma altMatch_lit_none (w syn ls rest : Str) (hlow : low rest = syn ++ ls)
    (h : mismatchWithin w syn = true) :
    altMatch (.lit w) rest = none := by
  simp only [altMatch]
  rw [hlow, not_pref_of_mismatch w syn ls h]
  rfl

/-- Failing `lit2` match, from a mismatch certificate on its first word. -/
lemma altMatch_lit2_none (w1 w2 syn ls rest : Str) (hlow : low rest = syn ++ ls)
    (h : mismatchWithin w1 syn = true) :
    altMatch (.lit2 w1 w2) rest = none := by
  simp only [altMatch]
  rw [hlow, not_pref_of_mismatch w1 syn ls h]
  rfl

/-- Failing `litS` match, from mismatch certificates for both forms. -/
lemma altMatch_litS_none (w syn ls rest : Str) (hlow : low rest = syn ++ ls)
    (h1 : mismatchWithin (w ++ ['s']) syn = true)
    (h2 : mismatchWithin w syn = true) :
    altMatch (.litS w) rest = none := by
  simp only [altMatch]
  rw [hlow, not_pref_of_mismatch _ syn ls h1, not_pref_of_mismatch _ syn ls h2]
  rfl

/-- `litS` match consuming the plural `s`. -/
lemma altMatch_litS_plural (w rest tail : Str)
    (hlow : low rest = (w ++ ['s']) ++ tail) :
    altMatch (.litS w) rest = some (w.length + 1) := by
  simp only [altMatch]
  rw [hlow, isPrefixOf_self_append]
  rfl

/-- `litS` match on the bare singular at the end of the text. -/
lemma altMatch_litS_sing_nil (w rest : Str) (hlow : low rest = w) :
    altMatch (.litS w) rest = some w.length := by
  simp only [altMatch]
  rw [hlow, isPrefixOf_snoc_nil]
  rw [show List.isPrefixOf w w = true by
    have := isPrefixOf_self_append w []
    simpa using this]
  rfl

/-- `litS` match on the singular when the next character is not an `s`. -/
lemma altMatch_litS_sing_cons (w rest : Str) (x : Char) (tail : Str)
    (hlow : low rest = w ++ x :: tail) (hx : ¬ x = 's') :
    altMatch (.litS w) rest = some w.length := by
  simp only [altMatch]
  rw [hlow, isPrefixOf_snoc_cons]
  rw [show ('s' == x) = false by
    rw [beq_eq_false_iff_ne]
    exact fun hh => hx hh.symm]
  rw [isPrefixOf_self_append]
  rfl

/-- An alternative with a failure certificate never matches. -/
lemma altMatch_none_of_fails (a : Alt) (syn ls rest : Str)
    (hlow : low rest = syn ++ ls) (h : altFailsOn a syn = true) :
    altMatch a rest = none := by
  rcases a with w | ⟨w1, w2⟩ | w
  · exact altMatch_lit_none w syn ls rest hlow (by simpa [altFailsOn] using h)
  · exact altMatch_lit2_none w1 w2 syn ls rest hlow (by simpa [altFailsOn] using h)
  · unfold altFailsOn at h
    rw [Bool.and_eq_true] at h
    exact altMatch_litS_none w syn ls rest hlow h.1 h.2

/-- A group whose alternatives all carry failure certificates never
matches. -/
lemma altsMatch_none_of_fails : ∀ (g : List Alt) (syn ls rest : Str),
    low rest = syn ++ ls → g.all (fun a => altFailsOn a syn) = true →
    altsMatch g rest = none := by
  intro g
  induction g with
  | nil => intro _ _ _ _ _; rfl
  | cons a as ih =>
    intro syn ls rest hlow h
    rw [List.all_cons, Bool.and_eq_true] at h
    unfold altsMatch
    rw [altMatch_none_of_fails a syn ls rest hlow h.1]
    exact ih syn ls rest hlow h.2

/-- Scan step: a non-matching group is skipped. -/
lemma findSpecific_cons_none (g : List Alt) (gs : List (List Alt)) (rest : Str)
    (h : altsMatch g rest = none) :
    findSpecific (g :: gs) rest = findSpecific gs rest := by
  simp only [findSpecific]
  rw [h]

/-- Scan step: a matching group ends the scan. -/
lemma findSpecific_cons_some (g : List Alt) (gs : List (List Alt)) (rest : Str)
    (n : Nat) (h : altsMatch g rest = some n) :
    findSpecific (g :: gs) rest = some n := by
  simp only [findSpecific]
  rw [h]

/-- Alternation step: a non-matching alternative is skipped. -/
lemma altsMatch_cons_none (a : Alt) (as : List Alt) (rest : Str)
    (h : altMatch a rest = none) :
    altsMatch (a :: as) rest = altsMatch as rest := by
  simp only [altsMatch]
  rw [h]

/-- Alternation step: the first matching alternative wins. -/
lemma altsMatch_cons_some (a : Alt) (as : List Alt) (rest : Str) (n : Nat)
    (h : altMatch a rest = some n) :
    altsMatch (a :: as) rest = some n := by
  simp only [altsMatch]
  rw [h]

/-- Leading `#` count of a hash run followed by a space. -/
lemma hashCount_replicate_space (k : Nat) (x : Str) :
    hashCount (List.replicate k '#' ++ ' ' :: x) = k := by
  induction k with
  | zero =>
    show hashCount (' ' :: x) = 0
    rw [hashCount, if_neg (by decide)]
  | succ n ih =>
    rw [List.replicate_succ, List.cons_append, hashCount, if_pos rfl, ih]

/-- Dropping a replicated run from its own concatenation. -/
lemma drop_replicate (k : Nat) (a : Char) (x : Str) :
    (List.replicate k a ++ x).drop k = x := by
  have h : k = (List.replicate k a : Str).length := by simp
  calc (List.replicate k a ++ x).drop k
      = (List.replicate k a ++ x).drop (List.replicate k a : Str).length := by
        rw [← h]
    _ = x := List.drop_left _ _

/-- Reduction of `_extract_section_name` on a stripped line made of hashes,
one space, and a title starting with a non-whitespace character. -/
lemma extract_hash_space (m : Nat) (c : Char) (r : Str) (hws : isWS c = false) :
    extractFromTrimmed (List.replicate (m + 1) '#' ++ ' ' :: c :: r)
      = match findSpecific SECTION_ALTS (c :: r) with
        | some n => some (normalizeSectionName (trim ((c :: r).take n)))
        | none => some (normalizeSectionName (trim (c :: r))) := by
  have h1 : hashCount (List.replicate (m + 1) '#' ++ ' ' :: c :: r) = m + 1 :=
    hashCount_replicate_space (m + 1) (c :: r)
  have h2 : restAfterHashes (List.replicate (m + 1) '#' ++ ' ' :: c :: r)
      = c :: r := by
    unfold restAfterHashes
    rw [h1, drop_replicate]
    rw [show wsCount (' ' :: c :: r) = 1 by
      rw [wsCount, if_pos (by decide), wsCount, if_neg (by simp [hws])]]
    rfl
  unfold extractFromTrimmed
  rw [h1, h2, if_neg (by omega)]
  rcases hfs : findSpecific SECTION_ALTS (c :: r) with _ | n
  · rw [if_neg (by simp)]
  · rfl

/-- Scan driver for C9: a header line of hashes, a space, and a title whose
lowercase form extends a synonym extracts to whatever the pattern scan
produces on such titles. -/
lemma c9_driver (line : Str) (m : Nat) (t suffix syn canon : Str)
    (htr : trim line = List.replicate (m + 1) '#' ++ ' ' :: (t ++ suffix))
    (ht : low t = syn)
    (hsyn_ne : syn ≠ []) (hsyn_ws : isWS (syn.headD 'x') = false)
    (hscan : ∀ (c : Char) (r ls : Str), low (c :: r) = syn ++ ls →
        ∃ len u, findSpecific SECTION_ALTS (c :: r) = some len ∧
          low ((c :: r).take len) = u ∧ normalizeSectionName u = canon) :
    extractSectionName line = some canon := by
  rcases t with _ | ⟨c, t'⟩
  · exact absurd ht.symm hsyn_ne
  · have hlow : low (c :: (t' ++ suffix)) = syn ++ low suffix := by
      rw [show (c :: (t' ++ suffix) : Str) = (c :: t') ++ suffix from rfl,
        low_append, ht]
    have hc : Char.toLower c = syn.headD 'x' := by
      rw [← ht]
      rfl
    have hws : isWS c = false := by
      rw [← isWS_toLower, hc]
      exact hsyn_ws
    show extractFromTrimmed (trim line) = some canon
    rw [htr, show (List.replicate (m + 1) '#' ++ ' ' :: ((c :: t') ++ suffix) : Str)
        = List.replicate (m + 1) '#' ++ ' ' :: c :: (t' ++ suffix) from rfl]
    rw [extract_hash_space m c (t' ++ suffix) hws]
    obtain ⟨len, u, hfs, hcap, hnorm⟩ := hscan c (t' ++ suffix) (low suffix) hlow
    rw [hfs]
    show some (normalizeSectionName (trim ((c :: (t' ++ suffix)).take len)))
        = some canon
    rw [normalize_of_low _ _ hcap, hnorm]

/-- Leading-whitespace count is insensitive to lowercasing. -/
lemma wsCount_low : ∀ (s : Str), wsCount (low s) = wsCount s := by
  intro s
  induction s with
  | nil => rfl
  | cons c r ih =>
    show wsCount (Char.toLower c :: low r) = wsCount (c :: r)
    simp only [wsCount]
    rw [isWS_toLower, ih]

/-- Whitespace head extends the leading run. -/
lemma wsCount_cons_ws (c : Char) (x : Str) (h : isWS c = true) :
    wsCount (c :: x) = wsCount x + 1 := by
  simp only [wsCount]
  rw [if_pos h]

/-- Non-whitespace head stops the leading run. -/
lemma wsCount_cons_not (c : Char) (x : Str) (h : isWS c = false) :
    wsCount (c :: x) = 0 := by
  simp only [wsCount]
  rw [if_neg (by simp [h])]

/-- Successful two-word match: first word, exactly one space, second word. -/
lemma altMatch_lit2_some (w1 w2 tail rest : Str)
    (hne : w2 ≠ []) (hhead : isWS (w2.headD 'x') = false)
    (hlow : low rest = w1 ++ ' ' :: (w2 ++ tail)) :
    altMatch (.lit2 w1 w2) rest = some (w1.length + 1 + w2.length) := by
  have hdrop : low (rest.drop w1.length) = ' ' :: (w2 ++ tail) := by
    show (rest.drop w1.length).map Char.toLower = ' ' :: (w2 ++ tail)
    rw [List.map_drop]
    show (low rest).drop w1.length = ' ' :: (w2 ++ tail)
    rw [hlow, List.drop_left]
  have hk : wsCount (rest.drop w1.length) = 1 := by
    rw [← wsCount_low, hdrop, wsCount_cons_ws _ _ (by decide)]
    rcases hw : w2 with _ | ⟨b, w2b⟩
    · exact absurd hw hne
    · rw [hw] at hhead
      have hb : isWS b = false := hhead
      show wsCount (b :: (w2b ++ tail)) + 1 = 1
      rw [wsCount_cons_not _ _ hb]
  have hpf2 : w2.isPrefixOf (low ((rest.drop w1.length).drop 1)) = true := by
    have hd2 : low ((rest.drop w1.length).drop 1) = w2 ++ tail := by
      show ((rest.drop w1.length).drop 1).map Char.toLower = w2 ++ tail
      rw [List.map_drop]
      show (low (rest.drop w1.length)).drop 1 = w2 ++ tail
      rw [hdrop]
      rfl
    rw [hd2, isPrefixOf_self_append]
  show (if List.isPrefixOf w1 (low rest) = true then
      if (decide (0 < wsCount (rest.drop w1.length)) &&
          List.isPrefixOf w2
            (low ((rest.drop w1.length).drop
              (wsCount (rest.drop w1.length))))) = true
      then some (w1.length + wsCount (rest.drop w1.length) + w2.length)
      else none
    else none) = some (w1.length + 1 + w2.length)
  rw [hlow, isPrefixOf_self_append, hk, hpf2]
  rfl

/-- Lowercase of a take, when the lowercase text starts with `u`. -/
lemma low_take_of_append (s u tail : Str) (n : Nat) (hn : n = u.length)
    (h : low s = u ++ tail) : low (s.take n) = u := by
  subst hn
  show (s.take u.length).map Char.toLower = u
  rw [List.map_take]
  show (low s).take u.length = u
  rw [h, List.take_left]

/-- A block of groups whose alternatives all carry failure certificates is
skipped as a whole. -/
lemma findSpecific_skipAll : ∀ (gs1 gs2 : List (List Alt)) (syn ls rest : Str),
    low rest = syn ++ ls →
    gs1.all (fun g => g.all (fun a => altFailsOn a syn)) = true →
    findSpecific (gs1 ++ gs2) rest = findSpecific gs2 rest := by
  intro gs1
  induction gs1 with
  | nil => intro gs2 syn ls rest _ _; rfl
  | cons g gs ih =>
    intro gs2 syn ls rest hlow hc
    rw [List.all_cons, Bool.and_eq_true] at hc
    rw [List.cons_append,
      findSpecific_cons_none _ _ _ (altsMatch_none_of_fails g syn ls rest hlow hc.1)]
    exact ih gs2 syn ls rest hlow hc.2

/-- Scan outcome for titles beginning with `summary`. -/
lemma scan_summary (c : Char) (r ls : Str)
    (hlow : low (c :: r) = str "summary" ++ ls) :
    ∃ len u, findSpecific SECTION_ALTS (c :: r) = some len ∧
      low ((c :: r).take len) = u ∧ normalizeSectionName u = str "summary" := by
  refine ⟨(str "summary").length, str "summary", ?_,
    low_take_of_append _ _ ls _ rfl hlow, by decide⟩
  apply findSpecific_cons_some
  apply altsMatch_cons_some
  exact altMatch_lit_some _ _ ls hlow

/-- Scan outcome for titles beginning with `work experience`. -/
lemma scan_work_experience (c : Char) (r ls : Str)
    (hlow : low (c :: r) = str "work experience" ++ ls) :
    ∃ len u, findSpecific SECTION_ALTS (c :: r) = some len ∧
      low ((c :: r).take len) = u ∧ normalizeSectionName u = str "experience" := by
  have hlow2 : low (c :: r) = str "work" ++ ' ' :: (str "experience" ++ ls) := by
    rw [hlow]
    simp [str]
  refine ⟨(str "work").length + 1 + (str "experience").length,
    str "work experience", ?_,
    low_take_of_append _ _ ls _ (by decide) hlow, by decide⟩
  rw [show SECTION_ALTS = SECTION_ALTS.take 1 ++ SECTION_ALTS.drop 1 from
    (List.take_append_drop 1 SECTION_ALTS).symm]
  rw [findSpecific_skipAll (SECTION_ALTS.take 1) (SECTION_ALTS.drop 1)
    (str "work experience") ls (c :: r) hlow (by decide)]
  apply findSpecific_cons_some
  rw [altsMatch_cons_none _ _ _
    (altMatch_lit_none (str "experience") _ ls _ hlow (by decide))]
  apply altsMatch_cons_some
  exact altMatch_lit2_some _ _ ls _ (by decide) (by decide) hlow2

/-- Scan outcome for titles beginning with `certification`. -/
lemma scan_certification (c : Char) (r ls : Str)
    (hlow : low (c :: r) = str "certification" ++ ls) :
    ∃ len u, findSpecific SECTION_ALTS (c :: r) = some len ∧
      low ((c :: r).take len) = u ∧
      normalizeSectionName u = str "certifications" := by
  have hskip : findSpecific SECTION_ALTS (c :: r)
      = findSpecific (SECTION_ALTS.drop 5) (c :: r) := by
    rw [show SECTION_ALTS = SECTION_ALTS.take 5 ++ SECTION_ALTS.drop 5 from
      (List.take_append_drop 5 SECTION_ALTS).symm]
    exact findSpecific_skipAll (SECTION_ALTS.take 5) (SECTION_ALTS.drop 5)
      (str "certification") ls (c :: r) hlow (by decide)
  rcases ls with _ | ⟨x, ls2⟩
  · have hl2 : low (c :: r) = str "certification" := by
      rw [hlow, List.append_nil]
    refine ⟨(str "certification").length, str "certification", ?_,
      low_take_of_append _ _ [] _ rfl hlow, by decide⟩
    rw [hskip]
    apply findSpecific_cons_some
    apply altsMatch_cons_some
    exact altMatch_litS_sing_nil _ _ hl2
  · by_cases hx : x = 's'
    · subst hx
      have hlow2 : low (c :: r) = (str "certification" ++ ['s']) ++ ls2 := by
        rw [hlow, List.append_assoc]
        rfl
      refine ⟨(str "certification").length + 1, str "certification" ++ ['s'], ?_,
        low_take_of_append _ _ ls2 _ (by decide) hlow2, by decide⟩
      rw [hskip]
      apply findSpecific_cons_some
      apply altsMatch_cons_some
      exact altMatch_litS_plural _ _ ls2 hlow2
    · refine ⟨(str "certification").length, str "certification", ?_,
        low_take_of_append _ _ (x :: ls2) _ rfl hlow, by decide⟩
      rw [hskip]
      apply findSpecific_cons_some
      apply altsMatch_cons_some
      exact altMatch_litS_sing_cons _ _ x ls2 hlow hx

/-- Scan outcome for titles beginning with `profile`. -/
lemma scan_profile (c : Char) (r ls : Str)
    (hlow : low (c :: r) = str "profile" ++ ls) :
    ∃ len u, findSpecific SECTION_ALTS (c :: r) = some len ∧
      low ((c :: r).take len) = u ∧
      normalizeSectionName u = str "summary" := by
  have hskip : findSpecific SECTION_ALTS (c :: r)
      = findSpecific (SECTION_ALTS.drop 0) (c :: r) := rfl
  refine ⟨(str "profile").length, str "profile", ?_,
    low_take_of_append _ _ ls _ rfl hlow, by decide⟩
  rw [hskip]
  apply findSpecific_cons_some
  rw [altsMatch_cons_none _ _ _
    (altMatch_lit_none (str "summary") _ ls _ hlow (by decide))]
  apply altsMatch_cons_some
  exact altMatch_lit_some _ _ ls hlow

/-- Scan outcome for titles beginning with `objective`. -/
lemma scan_objective (c : Char) (r ls : Str)
    (hlow : low (c :: r) = str "objective" ++ ls) :
    ∃ len u, findSpecific SECTION_ALTS (c :: r) = some len ∧
      low ((c :: r).take len) = u ∧
      normalizeSectionName u = str "summary" := by
  have hskip : findSpecific SECTION_ALTS (c :: r)
      = findSpecific (SECTION_ALTS.drop 0) (c :: r) := rfl
  refine ⟨(str "objective").length, str "objective", ?_,
    low_take_of_append _ _ ls _ rfl hlow, by decide⟩
  rw [hskip]
  apply findSpecific_cons_some
  rw [altsMatch_cons_none _ _ _
    (altMatch_lit_none (str "summary") _ ls _ hlow (by decide))]
  rw [altsMatch_cons_none _ _ _
    (altMatch_lit_none (str "profile") _ ls _ hlow (by decide))]
  apply altsMatch_cons_some
  exact altMatch_lit_some _ _ ls hlow

/-- Scan outcome for titles beginning with `experience`. -/
lemma scan_experience (c : Char) (r ls : Str)
    (hlow : low (c :: r) = str "experience" ++ ls) :
    ∃ len u, findSpecific SECTION_ALTS (c :: r) = some len ∧
      low ((c :: r).take len) = u ∧
      normalizeSectionName u = str "experience" := by
  have hskip : findSpecific SECTION_ALTS (c :: r)
      = findSpecific (SECTION_ALTS.drop 1) (c :: r) := by
    rw [show SECTION_ALTS = SECTION_ALTS.take 1 ++ SECTION_ALTS.drop 1 from
      (List.take_append_drop 1 SECTION_ALTS).symm]
    exact findSpecific_skipAll (SECTION_ALTS.take 1) (SECTION_ALTS.drop 1)
      (str "experience") ls (c :: r) hlow (by decide)
  refine ⟨(str "experience").length, str "experience", ?_,
    low_take_of_append _ _ ls _ rfl hlow, by decide⟩
  rw [hskip]
  apply findSpecific_cons_some
  apply altsMatch_cons_some
  exact altMatch_lit_some _ _ ls hlow

/-- Scan outcome for titles beginning with `employment`. -/
lemma scan_employment (c : Char) (r ls : Str)
    (hlow : low (c :: r) = str "employment" ++ ls) :
    ∃ len u, findSpecific SECTION_ALTS (c :: r) = some len ∧
      low ((c :: r).take len) = u ∧
      normalizeSectionName u = str "experience" := by
  have hskip : findSpecific SECTION_ALTS (c :: r)
      = findSpecific (SECTION_ALTS.drop 1) (c :: r) := by
    rw [show SECTION_ALTS = SECTION_ALTS.take 1 ++ SECTION_ALTS.drop 1 from
      (List.take_append_drop 1 SECTION_ALTS).symm]
    exact findSpecific_skipAll (SECTION_ALTS.take 1) (SECTION_ALTS.drop 1)
      (str "employment") ls (c :: r) hlow (by decide)
  refine ⟨(str "employment").length, str "employment", ?_,
    low_take_of_append _ _ ls _ rfl hlow, by decide⟩
  rw [hskip]
  apply findSpecific_cons_some
  rw [altsMatch_cons_none _ _ _
    (altMatch_lit_none (str "experience") _ ls _ hlow (by decide))]
  rw [altsMatch_cons_none _ _ _
    (altMatch_lit2_none (str "work") (str "experience") _ ls _ hlow (by decide))]
  apply altsMatch_cons_some
  exact altMatch_lit_some _ _ ls hlow

/-- Scan outcome for titles beginning with `education`. -/
lemma scan_education (c : Char) (r ls : Str)
    (hlow : low (c :: r) = str "education" ++ ls) :
    ∃ len u, findSpecific SECTION_ALTS (c :: r) = some len ∧
      low ((c :: r).take len) = u ∧
      normalizeSectionName u = str "education" := by
  have hskip : findSpecific SECTION_ALTS (c :: r)
      = findSpecific (SECTION_ALTS.drop 2) (c :: r) := by
    rw [show SECTION_ALTS = SECTION_ALTS.take 2 ++ SECTION_ALTS.drop 2 from
      (List.take_append_drop 2 SECTION_ALTS).symm]
    exact findSpecific_skipAll (SECTION_ALTS.take 2) (SECTION_ALTS.drop 2)
      (str "education") ls (c :: r) hlow (by decide)
  refine ⟨(str "education").length, str "education", ?_,
    low_take_of_append _ _ ls _ rfl hlow, by decide⟩
  rw [hskip]
  apply findSpecific_cons_some
  apply altsMatch_cons_some
  exact altMatch_lit_some _ _ ls hlow

/-- Scan outcome for titles beginning with `academic background`. -/
lemma scan_academic_background (c : Char) (r ls : Str)
    (hlow : low (c :: r) = str "academic background" ++ ls) :
    ∃ len u, findSpecific SECTION_ALTS (c :: r) = some len ∧
      low ((c :: r).take len) = u ∧
      normalizeSectionName u = str "education" := by
  have hskip : findSpecific SECTION_ALTS (c :: r)
      = findSpecific (SECTION_ALTS.drop 2) (c :: r) := by
    rw [show SECTION_ALTS = SECTION_ALTS.take 2 ++ SECTION_ALTS.drop 2 from
      (List.take_append_drop 2 SECTION_ALTS).symm]
    exact findSpecific_skipAll (SECTION_ALTS.take 2) (SECTION_ALTS.drop 2)
      (str "academic background") ls (c :: r) hlow (by decide)
  have hlow2 : low (c :: r) = str "academic" ++ ' ' :: (str "background" ++ ls) := by
    rw [hlow]
    simp [str]
  refine ⟨(str "academic").length + 1 + (str "background").length, str "academic background", ?_,
    low_take_of_append _ _ ls _ (by decide) hlow, by decide⟩
  rw [hskip]
  apply findSpecific_cons_some
  rw [altsMatch_cons_none _ _ _
    (altMatch_lit_none (str "education") _ ls _ hlow (by decide))]
  apply altsMatch_cons_some
  exact altMatch_lit2_some _ _ ls _ (by decide) (by decide) hlow2

/-- Scan outcome for titles beginning with `skills`. -/
lemma scan_skills (c : Char) (r ls : Str)
    (hlow : low (c :: r) = str "skills" ++ ls) :
    ∃ len u, findSpecific SECTION_ALTS (c :: r) = some len ∧
      low ((c :: r).take len) = u ∧
      normalizeSectionName u = str "skills" := by
  have hskip : findSpecific SECTION_ALTS (c :: r)
      = findSpecific (SECTION_ALTS.drop 3) (c :: r) := by
    rw [show SECTION_ALTS = SECTION_ALTS.take 3 ++ SECTION_ALTS.drop 3 from
      (List.take_append_drop 3 SECTION_ALTS).symm]
    exact findSpecific_skipAll (SECTION_ALTS.take 3) (SECTION_ALTS.drop 3)
      (str "skills") ls (c :: r) hlow (by decide)
  refine ⟨(str "skills").length, str "skills", ?_,
    low_take_of_append _ _ ls _ rfl hlow, by decide⟩
  rw [hskip]
  apply findSpecific_cons_some
  apply altsMatch_cons_some
  exact altMatch_lit_some _ _ ls hlow

/-- Scan outcome for titles beginning with `technical skills`. -/
lemma scan_technical_skills (c : Char) (r ls : Str)
    (hlow : low (c :: r) = str "technical skills" ++ ls) :
    ∃ len u, findSpecific SECTION_ALTS (c :: r) = some len ∧
      low ((c :: r).take len) = u ∧
      normalizeSectionName u = str "skills" := by
  have hskip : findSpecific SECTION_ALTS (c :: r)
      = findSpecific (SECTION_ALTS.drop 3) (c :: r) := by
    rw [show SECTION_ALTS = SECTION_ALTS.take 3 ++ SECTION_ALTS.drop 3 from
      (List.take_append_drop 3 SECTION_ALTS).symm]
    exact findSpecific_skipAll (SECTION_ALTS.take 3) (SECTION_ALTS.drop 3)
      (str "technical skills") ls (c :: r) hlow (by decide)
  have hlow2 : low (c :: r) = str "technical" ++ ' ' :: (str "skills" ++ ls) := by
    rw [hlow]
    simp [str]
  refine ⟨(str "technical").length + 1 + (str "skills").length, str "technical skills", ?_,
    low_take_of_append _ _ ls _ (by decide) hlow, by decide⟩
  rw [hskip]
  apply findSpecific_cons_some
  rw [altsMatch_cons_none _ _ _
    (altMatch_lit_none (str "skills") _ ls _ hlow (by decide))]
  apply altsMatch_cons_some
  exact altMatch_lit2_some _ _ ls _ (by decide) (by decide) hlow2

/-- Scan outcome for titles beginning with `core competencies`. -/
lemma scan_core_competencies (c : Char) (r ls : Str)
    (hlow : low (c :: r) = str "core competencies" ++ ls) :
    ∃ len u, findSpecific SECTION_ALTS (c :: r) = some len ∧
      low ((c :: r).take len) = u ∧
      normalizeSectionName u = str "skills" := by
  have hskip : findSpecific SECTION_ALTS (c :: r)
      = findSpecific (SECTION_ALTS.drop 3) (c :: r) := by
    rw [show SECTION_ALTS = SECTION_ALTS.take 3 ++ SECTION_ALTS.drop 3 from
      (List.take_append_drop 3 SECTION_ALTS).symm]
    exact findSpecific_skipAll (SECTION_ALTS.take 3) (SECTION_ALTS.drop 3)
      (str "core competencies") ls (c :: r) hlow (by decide)
  have hlow2 : low (c :: r) = str "core" ++ ' ' :: (str "competencies" ++ ls) := by
    rw [hlow]
    simp [str]
  refine ⟨(str "core").length + 1 + (str "competencies").length, str "core competencies", ?_,
    low_take_of_append _ _ ls _ (by decide) hlow, by decide⟩
  rw [hskip]
  apply findSpecific_cons_some
  rw [altsMatch_cons_none _ _ _
    (altMatch_lit_none (str "skills") _ ls _ hlow (by decide))]
  rw [altsMatch_cons_none _ _ _
    (altMatch_lit2_none (str "technical") (str "skills") _ ls _ hlow (by decide))]
  apply altsMatch_cons_some
  exact altMatch_lit2_some _ _ ls _ (by decide) (by decide) hlow2

/-- Scan outcome for titles beginning with `projects`. -/
lemma scan_projects (c : Char) (r ls : Str)
    (hlow : low (c :: r) = str "projects" ++ ls) :
    ∃ len u, findSpecific SECTION_ALTS (c :: r) = some len ∧
      low ((c :: r).take len) = u ∧
      normalizeSectionName u = str "projects" := by
  have hskip : findSpecific SECTION_ALTS (c :: r)
      = findSpecific (SECTION_ALTS.drop 4) (c :: r) := by
    rw [show SECTION_ALTS = SECTION_ALTS.take 4 ++ SECTION_ALTS.drop 4 from
      (List.take_append_drop 4 SECTION_ALTS).symm]
    exact findSpecific_skipAll (SECTION_ALTS.take 4) (SECTION_ALTS.drop 4)
      (str "projects") ls (c :: r) hlow (by decide)
  refine ⟨(str "projects").length, str "projects", ?_,
    low_take_of_append _ _ ls _ rfl hlow, by decide⟩
  rw [hskip]
  apply findSpecific_cons_some
  apply altsMatch_cons_some
  exact altMatch_lit_some _ _ ls hlow

/-- Scan outcome for titles beginning with `notable projects`. -/
lemma scan_notable_projects (c : Char) (r ls : Str)
    (hlow : low (c :: r) = str "notable projects" ++ ls) :
    ∃ len u, findSpecific SECTION_ALTS (c :: r) = some len ∧
      low ((c :: r).take len) = u ∧
      normalizeSectionName u = str "projects" := by
  have hskip : findSpecific SECTION_ALTS (c :: r)
      = findSpecific (SECTION_ALTS.drop 4) (c :: r) := by
    rw [show SECTION_ALTS = SECTION_ALTS.take 4 ++ SECTION_ALTS.drop 4 from
      (List.take_append_drop 4 SECTION_ALTS).symm]
    exact findSpecific_skipAll (SECTION_ALTS.take 4) (SECTION_ALTS.drop 4)
      (str "notable projects") ls (c :: r) hlow (by decide)
  have hlow2 : low (c :: r) = str "notable" ++ ' ' :: (str "projects" ++ ls) := by
    rw [hlow]
    simp [str]
  refine ⟨(str "notable").length + 1 + (str "projects").length, str "notable projects", ?_,
    low_take_of_append _ _ ls _ (by decide) hlow, by decide⟩
  rw [hskip]
  apply findSpecific_cons_some
  rw [altsMatch_cons_none _ _ _
    (altMatch_lit_none (str "projects") _ ls _ hlow (by decide))]
  apply altsMatch_cons_some
  exact altMatch_lit2_some _ _ ls _ (by decide) (by decide) hlow2

/-- Scan outcome for titles beginning with `certifications`. -/
lemma scan_certifications (c : Char) (r ls : Str)
    (hlow : low (c :: r) = str "certifications" ++ ls) :
    ∃ len u, findSpecific SECTION_ALTS (c :: r) = some len ∧
      low ((c :: r).take len) = u ∧
      normalizeSectionName u = str "certifications" := by
  have hskip : findSpecific SECTION_ALTS (c :: r)
      = findSpecific (SECTION_ALTS.drop 5) (c :: r) := by
    rw [show SECTION_ALTS = SECTION_ALTS.take 5 ++ SECTION_ALTS.drop 5 from
      (List.take_append_drop 5 SECTION_ALTS).symm]
    exact findSpecific_skipAll (SECTION_ALTS.take 5) (SECTION_ALTS.drop 5)
      (str "certifications") ls (c :: r) hlow (by decide)
  have hlow2 : low (c :: r) = (str "certification" ++ ['s']) ++ ls := by
    rw [hlow, show (str "certification" ++ ['s'] : Str) = str "certifications" from by decide]
  refine ⟨(str "certification").length + 1, str "certification" ++ ['s'], ?_,
    low_take_of_append _ _ ls _ (by decide) hlow2, by decide⟩
  rw [hskip]
  apply findSpecific_cons_some
  apply altsMatch_cons_some
  exact altMatch_litS_plural _ _ ls hlow2

/-- Scan outcome for titles beginning with `license`. -/
lemma scan_license (c : Char) (r ls : Str)
    (hlow : low (c :: r) = str "license" ++ ls) :
    ∃ len u, findSpecific SECTION_ALTS (c :: r) = some len ∧
      low ((c :: r).take len) = u ∧
      normalizeSectionName u = str "certifications" := by
  have hskip : findSpecific SECTION_ALTS (c :: r)
      = findSpecific (SECTION_ALTS.drop 5) (c :: r) := by
    rw [show SECTION_ALTS = SECTION_ALTS.take 5 ++ SECTION_ALTS.drop 5 from
      (List.take_append_drop 5 SECTION_ALTS).symm]
    exact findSpecific_skipAll (SECTION_ALTS.take 5) (SECTION_ALTS.drop 5)
      (str "license") ls (c :: r) hlow (by decide)
  rcases ls with _ | ⟨x, ls2⟩
  · have hl2 : low (c :: r) = str "license" := by
      rw [hlow, List.append_nil]
    refine ⟨(str "license").length, str "license", ?_,
      low_take_of_append _ _ [] _ rfl hlow, by decide⟩
    rw [hskip]
    apply findSpecific_cons_some
    rw [altsMatch_cons_none _ _ _
      (altMatch_litS_none (str "certification") _ [] _ hlow (by decide) (by decide))]
    apply altsMatch_cons_some
    exact altMatch_litS_sing_nil _ _ hl2
  · by_cases hx : x = 's'
    · subst hx
      have hlow2 : low (c :: r) = (str "license" ++ ['s']) ++ ls2 := by
        rw [hlow, List.append_assoc]
        rfl
      refine ⟨(str "license").length + 1, str "license" ++ ['s'], ?_,
        low_take_of_append _ _ ls2 _ (by decide) hlow2, by decide⟩
      rw [hskip]
      apply findSpecific_cons_some
      rw [altsMatch_cons_none _ _ _
        (altMatch_litS_none (str "certification") _ ('s' :: ls2) _ hlow (by decide) (by decide))]
      apply altsMatch_cons_some
      exact altMatch_litS_plural _ _ ls2 hlow2
    · refine ⟨(str "license").length, str "license", ?_,
        low_take_of_append _ _ (x :: ls2) _ rfl hlow, by decide⟩
      rw [hskip]
      apply findSpecific_cons_some
      rw [altsMatch_cons_none _ _ _
        (altMatch_litS_none (str "certification") _ (x :: ls2) _ hlow (by decide) (by decide))]
      apply altsMatch_cons_some
      exact altMatch_litS_sing_cons _ _ x ls2 hlow hx

/-- Scan outcome for titles beginning with `licenses`. -/
lemma scan_licenses (c : Char) (r ls : Str)
    (hlow : low (c :: r) = str "licenses" ++ ls) :
    ∃ len u, findSpecific SECTION_ALTS (c :: r) = some len ∧
      low ((c :: r).take len) = u ∧
      normalizeSectionName u = str "certifications" := by
  have hskip : findSpecific SECTION_ALTS (c :: r)
      = findSpecific (SECTION_ALTS.drop 5) (c :: r) := by
    rw [show SECTION_ALTS = SECTION_ALTS.take 5 ++ SECTION_ALTS.drop 5 from
      (List.take_append_drop 5 SECTION_ALTS).symm]
    exact findSpecific_skipAll (SECTION_ALTS.take 5) (SECTION_ALTS.drop 5)
      (str "licenses") ls (c :: r) hlow (by decide)
  have hlow2 : low (c :: r) = (str "license" ++ ['s']) ++ ls := by
    rw [hlow, show (str "license" ++ ['s'] : Str) = str "licenses" from by decide]
  refine ⟨(str "license").length + 1, str "license" ++ ['s'], ?_,
    low_take_of_append _ _ ls _ (by decide) hlow2, by decide⟩
  rw [hskip]
  apply findSpecific_cons_some
  rw [altsMatch_cons_none _ _ _
    (altMatch_litS_none (str "certification") _ ls _ hlow (by decide) (by decide))]
  apply altsMatch_cons_some
  exact altMatch_litS_plural _ _ ls hlow2

/-- Scan outcome for titles beginning with `award`. -/
lemma scan_award (c : Char) (r ls : Str)
    (hlow : low (c :: r) = str "award" ++ ls) :
    ∃ len u, findSpecific SECTION_ALTS (c :: r) = some len ∧
      low ((c :: r).take len) = u ∧
      normalizeSectionName u = str "awards" := by
  have hskip : findSpecific SECTION_ALTS (c :: r)
      = findSpecific (SECTION_ALTS.drop 6) (c :: r) := by
    rw [show SECTION_ALTS = SECTION_ALTS.take 6 ++ SECTION_ALTS.drop 6 from
      (List.take_append_drop 6 SECTION_ALTS).symm]
    exact findSpecific_skipAll (SECTION_ALTS.take 6) (SECTION_ALTS.drop 6)
      (str "award") ls (c :: r) hlow (by decide)
  rcases ls with _ | ⟨x, ls2⟩
  · have hl2 : low (c :: r) = str "award" := by
      rw [hlow, List.append_nil]
    refine ⟨(str "award").length, str "award", ?_,
      low_take_of_append _ _ [] _ rfl hlow, by decide⟩
    rw [hskip]
    apply findSpecific_cons_some
    apply altsMatch_cons_some
    exact altMatch_litS_sing_nil _ _ hl2
  · by_cases hx : x = 's'
    · subst hx
      have hlow2 : low (c :: r) = (str "award" ++ ['s']) ++ ls2 := by
        rw [hlow, List.append_assoc]
        rfl
      refine ⟨(str "award").length + 1, str "award" ++ ['s'], ?_,
        low_take_of_append _ _ ls2 _ (by decide) hlow2, by decide⟩
      rw [hskip]
      apply findSpecific_cons_some
      apply altsMatch_cons_some
      exact altMatch_litS_plural _ _ ls2 hlow2
    · refine ⟨(str "award").length, str "award", ?_,
        low_take_of_append _ _ (x :: ls2) _ rfl hlow, by decide⟩
      rw [hskip]
      apply findSpecific_cons_some
      apply altsMatch_cons_some
      exact altMatch_litS_sing_cons _ _ x ls2 hlow hx

/-- Scan outcome for titles beginning with `awards`. -/
lemma scan_awards (c : Char) (r ls : Str)
    (hlow : low (c :: r) = str "awards" ++ ls) :
    ∃ len u, findSpecific SECTION_ALTS (c :: r) = some len ∧
      low ((c :: r).take len) = u ∧
      normalizeSectionName u = str "awards" := by
  have hskip : findSpecific SECTION_ALTS (c :: r)
      = findSpecific (SECTION_ALTS.drop 6) (c :: r) := by
    rw [show SECTION_ALTS = SECTION_ALTS.take 6 ++ SECTION_ALTS.drop 6 from
      (List.take_append_drop 6 SECTION_ALTS).symm]
    exact findSpecific_skipAll (SECTION_ALTS.take 6) (SECTION_ALTS.drop 6)
      (str "awards") ls (c :: r) hlow (by decide)
  have hlow2 : low (c :: r) = (str "award" ++ ['s']) ++ ls := by
    rw [hlow, show (str "award" ++ ['s'] : Str) = str "awards" from by decide]
  refine ⟨(str "award").length + 1, str "award" ++ ['s'], ?_,
    low_take_of_append _ _ ls _ (by decide) hlow2, by decide⟩
  rw [hskip]
  apply findSpecific_cons_some
  apply altsMatch_cons_some
  exact altMatch_litS_plural _ _ ls hlow2

/-- Scan outcome for titles beginning with `achievement`. -/
lemma scan_achievement (c : Char) (r ls : Str)
    (hlow : low (c :: r) = str "achievement" ++ ls) :
    ∃ len u, findSpecific SECTION_ALTS (c :: r) = some len ∧
      low ((c :: r).take len) = u ∧
      normalizeSectionName u = str "awards" := by
  have hskip : findSpecific SECTION_ALTS (c :: r)
      = findSpecific (SECTION_ALTS.drop 6) (c :: r) := by
    rw [show SECTION_ALTS = SECTION_ALTS.take 6 ++ SECTION_ALTS.drop 6 from
      (List.take_append_drop 6 SECTION_ALTS).symm]
    exact findSpecific_skipAll (SECTION_ALTS.take 6) (SECTION_ALTS.drop 6)
      (str "achievement") ls (c :: r) hlow (by decide)
  rcases ls with _ | ⟨x, ls2⟩
  · have hl2 : low (c :: r) = str "achievement" := by
      rw [hlow, List.append_nil]
    refine ⟨(str "achievement").length, str "achievement", ?_,
      low_take_of_append _ _ [] _ rfl hlow, by decide⟩
    rw [hskip]
    apply findSpecific_cons_some
    rw [altsMatch_cons_none _ _ _
      (altMatch_litS_none (str "award") _ [] _ hlow (by decide) (by decide))]
    apply altsMatch_cons_some
    exact altMatch_litS_sing_nil _ _ hl2
  · by_cases hx : x = 's'
    · subst hx
      have hlow2 : low (c :: r) = (str "achievement" ++ ['s']) ++ ls2 := by
        rw [hlow, List.append_assoc]
        rfl
      refine ⟨(str "achievement").length + 1, str "achievement" ++ ['s'], ?_,
        low_take_of_append _ _ ls2 _ (by decide) hlow2, by decide⟩
      rw [hskip]
      apply findSpecific_cons_some
      rw [altsMatch_cons_none _ _ _
        (altMatch_litS_none (str "award") _ ('s' :: ls2) _ hlow (by decide) (by decide))]
      apply altsMatch_cons_some
      exact altMatch_litS_plural _ _ ls2 hlow2
    · refine ⟨(str "achievement").length, str "achievement", ?_,
        low_take_of_append _ _ (x :: ls2) _ rfl hlow, by decide⟩
      rw [hskip]
      apply findSpecific_cons_some
      rw [altsMatch_cons_none _ _ _
        (altMatch_litS_none (str "award") _ (x :: ls2) _ hlow (by decide) (by decide))]
      apply altsMatch_cons_some
      exact altMatch_litS_sing_cons _ _ x ls2 hlow hx

/-- Scan outcome for titles beginning with `achievements`. -/
lemma scan_achievements (c : Char) (r ls : Str)
    (hlow : low (c :: r) = str "achievements" ++ ls) :
    ∃ len u, findSpecific SECTION_ALTS (c :: r) = some len ∧
      low ((c :: r).take len) = u ∧
      normalizeSectionName u = str "awards" := by
  have hskip : findSpecific SECTION_ALTS (c :: r)
      = findSpecific (SECTION_ALTS.drop 6) (c :: r) := by
    rw [show SECTION_ALTS = SECTION_ALTS.take 6 ++ SECTION_ALTS.drop 6 from
      (List.take_append_drop 6 SECTION_ALTS).symm]
    exact findSpecific_skipAll (SECTION_ALTS.take 6) (SECTION_ALTS.drop 6)
      (str "achievements") ls (c :: r) hlow (by decide)
  have hlow2 : low (c :: r) = (str "achievement" ++ ['s']) ++ ls := by
    rw [hlow, show (str "achievement" ++ ['s'] : Str) = str "achievements" from by decide]
  refine ⟨(str "achievement").length + 1, str "achievement" ++ ['s'], ?_,
    low_take_of_append _ _ ls _ (by decide) hlow2, by decide⟩
  rw [hskip]
  apply findSpecific_cons_some
  rw [altsMatch_cons_none _ _ _
    (altMatch_litS_none (str "award") _ ls _ hlow (by decide) (by decide))]
  apply altsMatch_cons_some
  exact altMatch_litS_plural _ _ ls hlow2

/-- Scan outcome for titles beginning with `honor`. -/
lemma scan_honor (c : Char) (r ls : Str)
    (hlow : low (c :: r) = str "honor" ++ ls) :
    ∃ len u, findSpecific SECTION_ALTS (c :: r) = some len ∧
      low ((c :: r).take len) = u ∧
      normalizeSectionName u = str "awards" := by
  have hskip : findSpecific SECTION_ALTS (c :: r)
      = findSpecific (SECTION_ALTS.drop 6) (c :: r) := by
    rw [show SECTION_ALTS = SECTION_ALTS.take 6 ++ SECTION_ALTS.drop 6 from
      (List.take_append_drop 6 SECTION_ALTS).symm]
    exact findSpecific_skipAll (SECTION_ALTS.take 6) (SECTION_ALTS.drop 6)
      (str "honor") ls (c :: r) hlow (by decide)
  rcases ls with _ | ⟨x, ls2⟩
  · have hl2 : low (c :: r) = str "honor" := by
      rw [hlow, List.append_nil]
    refine ⟨(str "honor").length, str "honor", ?_,
      low_take_of_append _ _ [] _ rfl hlow, by decide⟩
    rw [hskip]
    apply findSpecific_cons_some
    rw [altsMatch_cons_none _ _ _
      (altMatch_litS_none (str "award") _ [] _ hlow (by decide) (by decide))]
    rw [altsMatch_cons_none _ _ _
      (altMatch_litS_none (str "achievement") _ [] _ hlow (by decide) (by decide))]
    apply altsMatch_cons_some
    exact altMatch_litS_sing_nil _ _ hl2
  · by_cases hx : x = 's'
    · subst hx
      have hlow2 : low (c :: r) = (str "honor" ++ ['s']) ++ ls2 := by
        rw [hlow, List.append_assoc]
        rfl
      refine ⟨(str "honor").length + 1, str "honor" ++ ['s'], ?_,
        low_take_of_append _ _ ls2 _ (by decide) hlow2, by decide⟩
      rw [hskip]
      apply findSpecific_cons_some
      rw [altsMatch_cons_none _ _ _
        (altMatch_litS_none (str "award") _ ('s' :: ls2) _ hlow (by decide) (by decide))]
      rw [altsMatch_cons_none _ _ _
        (altMatch_litS_none (str "achievement") _ ('s' :: ls2) _ hlow (by decide) (by decide))]
      apply altsMatch_cons_some
      exact altMatch_litS_plural _ _ ls2 hlow2
    · refine ⟨(str "honor").length, str "honor", ?_,
        low_take_of_append _ _ (x :: ls2) _ rfl hlow, by decide⟩
      rw [hskip]
      apply findSpecific_cons_some
      rw [altsMatch_cons_none _ _ _
        (altMatch_litS_none (str "award") _ (x :: ls2) _ hlow (by decide) (by decide))]
      rw [altsMatch_cons_none _ _ _
        (altMatch_litS_none (str "achievement") _ (x :: ls2) _ hlow (by decide) (by decide))]
      apply altsMatch_cons_some
      exact altMatch_litS_sing_cons _ _ x ls2 hlow hx

/-- Scan outcome for titles beginning with `honors`. -/
lemma scan_honors (c : Char) (r ls : Str)
    (hlow : low (c :: r) = str "honors" ++ ls) :
    ∃ len u, findSpecific SECTION_ALTS (c :: r) = some len ∧
      low ((c :: r).take len) = u ∧
      normalizeSectionName u = str "awards" := by
  have hskip : findSpecific SECTION_ALTS (c :: r)
      = findSpecific (SECTION_ALTS.drop 6) (c :: r) := by
    rw [show SECTION_ALTS = SECTION_ALTS.take 6 ++ SECTION_ALTS.drop 6 from
      (List.take_append_drop 6 SECTION_ALTS).symm]
    exact findSpecific_skipAll (SECTION_ALTS.take 6) (SECTION_ALTS.drop 6)
      (str "honors") ls (c :: r) hlow (by decide)
  have hlow2 : low (c :: r) = (str "honor" ++ ['s']) ++ ls := by
    rw [hlow, show (str "honor" ++ ['s'] : Str) = str "honors" from by decide]
  refine ⟨(str "honor").length + 1, str "honor" ++ ['s'], ?_,
    low_take_of_append _ _ ls _ (by decide) hlow2, by decide⟩
  rw [hskip]
  apply findSpecific_cons_some
  rw [altsMatch_cons_none _ _ _
    (altMatch_litS_none (str "award") _ ls _ hlow (by decide) (by decide))]
  rw [altsMatch_cons_none _ _ _
    (altMatch_litS_none (str "achievement") _ ls _ hlow (by decide) (by decide))]
  apply altsMatch_cons_some
  exact altMatch_litS_plural _ _ ls hlow2

/-- Scan outcome for titles beginning with `contact`. -/
lemma scan_contact (c : Char) (r ls : Str)
    (hlow : low (c :: r) = str "contact" ++ ls) :
    ∃ len u, findSpecific SECTION_ALTS (c :: r) = some len ∧
      low ((c :: r).take len) = u ∧
      normalizeSectionName u = str "contact" := by
  have hskip : findSpecific SECTION_ALTS (c :: r)
      = findSpecific (SECTION_ALTS.drop 7) (c :: r) := by
    rw [show SECTION_ALTS = SECTION_ALTS.take 7 ++ SECTION_ALTS.drop 7 from
      (List.take_append_drop 7 SECTION_ALTS).symm]
    exact findSpecific_skipAll (SECTION_ALTS.take 7) (SECTION_ALTS.drop 7)
      (str "contact") ls (c :: r) hlow (by decide)
  refine ⟨(str "contact").length, str "contact", ?_,
    low_take_of_append _ _ ls _ rfl hlow, by decide⟩
  rw [hskip]
  apply findSpecific_cons_some
  apply altsMatch_cons_some
  exact altMatch_lit_some _ _ ls hlow

/-- Scan outcome for titles beginning with `contact information`. -/
lemma scan_contact_information (c : Char) (r ls : Str)
    (hlow : low (c :: r) = str "contact information" ++ ls) :
    ∃ len u, findSpecific SECTION_ALTS (c :: r) = some len ∧
      low ((c :: r).take len) = u ∧
      normalizeSectionName u = str "contact" := by
  have hskip : findSpecific SECTION_ALTS (c :: r)
      = findSpecific (SECTION_ALTS.drop 7) (c :: r) := by
    rw [show SECTION_ALTS = SECTION_ALTS.take 7 ++ SECTION_ALTS.drop 7 from
      (List.take_append_drop 7 SECTION_ALTS).symm]
    exact findSpecific_skipAll (SECTION_ALTS.take 7) (SECTION_ALTS.drop 7)
      (str "contact information") ls (c :: r) hlow (by decide)
  have hlow2 : low (c :: r) = str "contact" ++ (str " information" ++ ls) := by
    rw [hlow]
    simp [str]
  refine ⟨(str "contact").length, str "contact", ?_,
    low_take_of_append _ _ (str " information" ++ ls) _ rfl hlow2, by decide⟩
  rw [hskip]
  apply findSpecific_cons_some
  apply altsMatch_cons_some
  exact altMatch_lit_some _ _ _ hlow2

/-- Scan outcome for titles beginning with `language`. -/
lemma scan_language (c : Char) (r ls : Str)
    (hlow : low (c :: r) = str "language" ++ ls) :
    ∃ len u, findSpecific SECTION_ALTS (c :: r) = some len ∧
      low ((c :: r).take len) = u ∧
      normalizeSectionName u = str "languages" := by
  have hskip : findSpecific SECTION_ALTS (c :: r)
      = findSpecific (SECTION_ALTS.drop 8) (c :: r) := by
    rw [show SECTION_ALTS = SECTION_ALTS.take 8 ++ SECTION_ALTS.drop 8 from
      (List.take_append_drop 8 SECTION_ALTS).symm]
    exact findSpecific_skipAll (SECTION_ALTS.take 8) (SECTION_ALTS.drop 8)
      (str "language") ls (c :: r) hlow (by decide)
  rcases ls with _ | ⟨x, ls2⟩
  · have hl2 : low (c :: r) = str "language" := by
      rw [hlow, List.append_nil]
    refine ⟨(str "language").length, str "language", ?_,
      low_take_of_append _ _ [] _ rfl hlow, by decide⟩
    rw [hskip]
    apply findSpecific_cons_some
    apply altsMatch_cons_some
    exact altMatch_litS_sing_nil _ _ hl2
  · by_cases hx : x = 's'
    · subst hx
      have hlow2 : low (c :: r) = (str "language" ++ ['s']) ++ ls2 := by
        rw [hlow, List.append_assoc]
        rfl
      refine ⟨(str "language").length + 1, str "language" ++ ['s'], ?_,
        low_take_of_append _ _ ls2 _ (by decide) hlow2, by decide⟩
      rw [hskip]
      apply findSpecific_cons_some
      apply altsMatch_cons_some
      exact altMatch_litS_plural _ _ ls2 hlow2
    · refine ⟨(str "language").length, str "language", ?_,
        low_take_of_append _ _ (x :: ls2) _ rfl hlow, by decide⟩
      rw [hskip]
      apply findSpecific_cons_some
      apply altsMatch_cons_some
      exact altMatch_litS_sing_cons _ _ x ls2 hlow hx

/-- Scan outcome for titles beginning with `languages`. -/
lemma scan_languages (c : Char) (r ls : Str)
    (hlow : low (c :: r) = str "languages" ++ ls) :
    ∃ len u, findSpecific SECTION_ALTS (c :: r) = some len ∧
      low ((c :: r).take len) = u ∧
      normalizeSectionName u = str "languages" := by
  have hskip : findSpecific SECTION_ALTS (c :: r)
      = findSpecific (SECTION_ALTS.drop 8) (c :: r) := by
    rw [show SECTION_ALTS = SECTION_ALTS.take 8 ++ SECTION_ALTS.drop 8 from
      (List.take_append_drop 8 SECTION_ALTS).symm]
    exact findSpecific_skipAll (SECTION_ALTS.take 8) (SECTION_ALTS.drop 8)
      (str "languages") ls (c :: r) hlow (by decide)
  have hlow2 : low (c :: r) = (str "language" ++ ['s']) ++ ls := by
    rw [hlow, show (str "language" ++ ['s'] : Str) = str "languages" from by decide]
  refine ⟨(str "language").length + 1, str "language" ++ ['s'], ?_,
    low_take_of_append _ _ ls _ (by decide) hlow2, by decide⟩
  rw [hskip]
  apply findSpecific_cons_some
  apply altsMatch_cons_some
  exact altMatch_litS_plural _ _ ls hlow2

/-- Scan outcome for titles beginning with `publication`. -/
lemma scan_publication (c : Char) (r ls : Str)
    (hlow : low (c :: r) = str "publication" ++ ls) :
    ∃ len u, findSpecific SECTION_ALTS (c :: r) = some len ∧
      low ((c :: r).take len) = u ∧
      normalizeSectionName u = str "publications" := by
  have hskip : findSpecific SECTION_ALTS (c :: r)
      = findSpecific (SECTION_ALTS.drop 9) (c :: r) := by
    rw [show SECTION_ALTS = SECTION_ALTS.take 9 ++ SECTION_ALTS.drop 9 from
      (List.take_append_drop 9 SECTION_ALTS).symm]
    exact findSpecific_skipAll (SECTION_ALTS.take 9) (SECTION_ALTS.drop 9)
      (str "publication") ls (c :: r) hlow (by decide)
  rcases ls with _ | ⟨x, ls2⟩
  · have hl2 : low (c :: r) = str "publication" := by
      rw [hlow, List.append_nil]
    refine ⟨(str "publication").length, str "publication", ?_,
      low_take_of_append _ _ [] _ rfl hlow, by decide⟩
    rw [hskip]
    apply findSpecific_cons_some
    apply altsMatch_cons_some
    exact altMatch_litS_sing_nil _ _ hl2
  · by_cases hx : x = 's'
    · subst hx
      have hlow2 : low (c :: r) = (str "publication" ++ ['s']) ++ ls2 := by
        rw [hlow, List.append_assoc]
        rfl
      refine ⟨(str "publication").length + 1, str "publication" ++ ['s'], ?_,
        low_take_of_append _ _ ls2 _ (by decide) hlow2, by decide⟩
      rw [hskip]
      apply findSpecific_cons_some
      apply altsMatch_cons_some
      exact altMatch_litS_plural _ _ ls2 hlow2
    · refine ⟨(str "publication").length, str "publication", ?_,
        low_take_of_append _ _ (x :: ls2) _ rfl hlow, by decide⟩
      rw [hskip]
      apply findSpecific_cons_some
      apply altsMatch_cons_some
      exact altMatch_litS_sing_cons _ _ x ls2 hlow hx

/-- Scan outcome for titles beginning with `publications`. -/
lemma scan_publications (c : Char) (r ls : Str)
    (hlow : low (c :: r) = str "publications" ++ ls) :
    ∃ len u, findSpecific SECTION_ALTS (c :: r) = some len ∧
      low ((c :: r).take len) = u ∧
      normalizeSectionName u = str "publications" := by
  have hskip : findSpecific SECTION_ALTS (c :: r)
      = findSpecific (SECTION_ALTS.drop 9) (c :: r) := by
    rw [show SECTION_ALTS = SECTION_ALTS.take 9 ++ SECTION_ALTS.drop 9 from
      (List.take_append_drop 9 SECTION_ALTS).symm]
    exact findSpecific_skipAll (SECTION_ALTS.take 9) (SECTION_ALTS.drop 9)
      (str "publications") ls (c :: r) hlow (by decide)
  have hlow2 : low (c :: r) = (str "publication" ++ ['s']) ++ ls := by
    rw [hlow, show (str "publication" ++ ['s'] : Str) = str "publications" from by decide]
  refine ⟨(str "publication").length + 1, str "publication" ++ ['s'], ?_,
    low_take_of_append _ _ ls _ (by decide) hlow2, by decide⟩
  rw [hskip]
  apply findSpecific_cons_some
  apply altsMatch_cons_some
  exact altMatch_litS_plural _ _ ls hlow2

/-- Scan outcome for titles beginning with `reference`. -/
lemma scan_reference (c : Char) (r ls : Str)
    (hlow : low (c :: r) = str "reference" ++ ls) :
    ∃ len u, findSpecific SECTION_ALTS (c :: r) = some len ∧
      low ((c :: r).take len) = u ∧
      normalizeSectionName u = str "references" := by
  have hskip : findSpecific SECTION_ALTS (c :: r)
      = findSpecific (SECTION_ALTS.drop 10) (c :: r) := by
    rw [show SECTION_ALTS = SECTION_ALTS.take 10 ++ SECTION_ALTS.drop 10 from
      (List.take_append_drop 10 SECTION_ALTS).symm]
    exact findSpecific_skipAll (SECTION_ALTS.take 10) (SECTION_ALTS.drop 10)
      (str "reference") ls (c :: r) hlow (by decide)
  rcases ls with _ | ⟨x, ls2⟩
  · have hl2 : low (c :: r) = str "reference" := by
      rw [hlow, List.append_nil]
    refine ⟨(str "reference").length, str "reference", ?_,
      low_take_of_append _ _ [] _ rfl hlow, by decide⟩
    rw [hskip]
    apply findSpecific_cons_some
    apply altsMatch_cons_some
    exact altMatch_litS_sing_nil _ _ hl2
  · by_cases hx : x = 's'
    · subst hx
      have hlow2 : low (c :: r) = (str "reference" ++ ['s']) ++ ls2 := by
        rw [hlow, List.append_assoc]
        rfl
      refine ⟨(str "reference").length + 1, str "reference" ++ ['s'], ?_,
        low_take_of_append _ _ ls2 _ (by decide) hlow2, by decide⟩
      rw [hskip]
      apply findSpecific_cons_some
      apply altsMatch_cons_some
      exact altMatch_litS_plural _ _ ls2 hlow2
    · refine ⟨(str "reference").length, str "reference", ?_,
        low_take_of_append _ _ (x :: ls2) _ rfl hlow, by decide⟩
      rw [hskip]
      apply findSpecific_cons_some
      apply altsMatch_cons_some
      exact altMatch_litS_sing_cons _ _ x ls2 hlow hx

/-- Scan outcome for titles beginning with `references`. -/
lemma scan_references (c : Char) (r ls : Str)
    (hlow : low (c :: r) = str "references" ++ ls) :
    ∃ len u, findSpecific SECTION_ALTS (c :: r) = some len ∧
      low ((c :: r).take len) = u ∧
      normalizeSectionName u = str "references" := by
  have hskip : findSpecific SECTION_ALTS (c :: r)
      = findSpecific (SECTION_ALTS.drop 10) (c :: r) := by
    rw [show SECTION_ALTS = SECTION_ALTS.take 10 ++ SECTION_ALTS.drop 10 from
      (List.take_append_drop 10 SECTION_ALTS).symm]
    exact findSpecific_skipAll (SECTION_ALTS.take 10) (SECTION_ALTS.drop 10)
      (str "references") ls (c :: r) hlow (by decide)
  have hlow2 : low (c :: r) = (str "reference" ++ ['s']) ++ ls := by
    rw [hlow, show (str "reference" ++ ['s'] : Str) = str "references" from by decide]
  refine ⟨(str "reference").length + 1, str "reference" ++ ['s'], ?_,
    low_take_of_append _ _ ls _ (by decide) hlow2, by decide⟩
  rw [hskip]
  apply findSpecific_cons_some
  apply altsMatch_cons_some
  exact altMatch_litS_plural _ _ ls hlow2

/-- C9: header recognition is prefix-based.  For every synonym/canonical
pair of the recognized table, a header line whose stripped form is a run of
`#`, a space, and a title whose lowercase text merely begins with the
synonym is extracted to that synonym's canonical name, discarding the rest
of the title. -/
theorem c9_prefix_recognition (p : Str × Str) (hp : p ∈ SYNONYM_TABLE)
    (line : Str) (m : Nat) (t suffix : Str)
    (htr : trim line = List.replicate (m + 1) '#' ++ ' ' :: (t ++ suffix))
    (ht : low t = p.1) :
    extractSectionName line = some p.2 := by
  fin_cases hp
  · exact c9_driver line m t suffix _ _ htr ht (by decide) (by decide) scan_summary
  · exact c9_driver line m t suffix _ _ htr ht (by decide) (by decide) scan_profile
  · exact c9_driver line m t suffix _ _ htr ht (by decide) (by decide) scan_objective
  · exact c9_driver line m t suffix _ _ htr ht (by decide) (by decide) scan_experience
  · exact c9_driver line m t suffix _ _ htr ht (by decide) (by decide) scan_work_experience
  · exact c9_driver line m t suffix _ _ htr ht (by decide) (by decide) scan_employment
  · exact c9_driver line m t suffix _ _ htr ht (by decide) (by decide) scan_education
  · exact c9_driver line m t suffix _ _ htr ht (by decide) (by decide) scan_academic_background
  · exact c9_driver line m t suffix _ _ htr ht (by decide) (by decide) scan_skills
  · exact c9_driver line m t suffix _ _ htr ht (by decide) (by decide) scan_technical_skills
  · exact c9_driver line m t suffix _ _ htr ht (by decide) (by decide) scan_core_competencies
  · exact c9_driver line m t suffix _ _ htr ht (by decide) (by decide) scan_projects
  · exact c9_driver line m t suffix _ _ htr ht (by decide) (by decide) scan_notable_projects
  · exact c9_driver line m t suffix _ _ htr ht (by decide) (by decide) scan_certification
  · exact c9_driver line m t suffix _ _ htr ht (by decide) (by decide) scan_certifications
  · exact c9_driver line m t suffix _ _ htr ht (by decide) (by decide) scan_license
  · exact c9_driver line m t suffix _ _ htr ht (by decide) (by decide) scan_licenses
  · exact c9_driver line m t suffix _ _ htr ht (by decide) (by decide) scan_award
  · exact c9_driver line m t suffix _ _ htr ht (by decide) (by decide) scan_awards
  · exact c9_driver line m t suffix _ _ htr ht (by decide) (by decide) scan_achievement
  · exact c9_driver line m t suffix _ _ htr ht (by decide) (by decide) scan_achievements
  · exact c9_driver line m t suffix _ _ htr ht (by decide) (by decide) scan_honor
  · exact c9_driver line m t suffix _ _ htr ht (by decide) (by decide) scan_honors
  · exact c9_driver line m t suffix _ _ htr ht (by decide) (by decide) scan_contact
  · exact c9_driver line m t suffix _ _ htr ht (by decide) (by decide) scan_contact_information
  · exact c9_driver line m t suffix _ _ htr ht (by decide) (by decide) scan_language
  · exact c9_driver line m t suffix _ _ htr ht (by decide) (by decide) scan_languages
  · exact c9_driver line m t suffix _ _ htr ht (by decide) (by decide) scan_publication
  · exact c9_driver line m t suffix _ _ htr ht (by decide) (by decide) scan_publications
  · exact c9_driver line m t suffix _ _ htr ht (by decide) (by decide) scan_reference
  · exact c9_driver line m t suffix _ _ htr ht (by decide) (by decide) scan_references

/-- Concrete check for C9: `## Skills and Tools` is keyed `skills`. -/
theorem c9_prefix_recognition_witness :
    (str "skills", str "skills") ∈ SYNONYM_TABLE ∧
    trim (str "## Skills and Tools")
      = List.replicate (1 + 1) '#' ++ ' ' :: (str "Skills" ++ str " and Tools") ∧
    low (str "Skills") = str "skills" ∧
    extractSectionName (str "## Skills and Tools") = some (str "skills") :=
  ⟨by decide, by decide, by decide,
    c9_prefix_recognition (str "skills", str "skills") (by decide)
      (str "## Skills and Tools") 1 (str "Skills") (str " and Tools")
      (by decide) (by decide)⟩

end CV
